import Mathlib

/-!
# Verification of the mcp-getgather gateway against its specification

Shallow embedding of the container gateway (engine client, container
service/manager, token router, auth middleware, proxy-template renderer)
in Lean 4, with theorems settling the frozen claims C1..C10.

Strings are embedded as `List Char`; Python dicts as association lists;
the container engine and the file system as explicit record states that
the embedded operations thread through.
-/

namespace Gateway

/-- Python strings, embedded as lists of characters. -/
abbrev Str := List Char

/-! ## C8: the MCP auth middleware (`src/auth/auth.py`, `RequireAuthMiddlewareCustom.__call__`) -/

/-- The parts of an ASGI scope that `RequireAuthMiddlewareCustom.__call__` reads:
`scope.get("path")` and the `accept` header (absent headers read as `None`). -/
structure ScopeReq where
  path : Option Str
  accept : Option Str

/-- The three continuations the middleware can take: issue the 307 redirect to `/`,
run bearer-token authentication (`super().__call__`), or pass to the inner app. -/
inductive MCPAuthAction where
  | redirectHome
  | bearerAuth
  | passApp
deriving DecidableEq

def mcpPathLit : Str := "/mcp".toList

def eventStreamLit : Str := "text/event-stream".toList

/-- Embedding of `RequireAuthMiddlewareCustom.__call__`:
`path = scope.get("path"); if path and path.startswith("/mcp"): ...` where a missing
or empty path is falsy, `accept = headers.get("accept") or ""`, and membership of
`"text/event-stream"` in `accept` is substring containment. -/
def requireAuthCall (req : ScopeReq) : MCPAuthAction :=
  match req.path with
  | some p =>
    if p ≠ [] ∧ mcpPathLit <+: p then
      if eventStreamLit <:+: (req.accept.getD []) then .bearerAuth else .redirectHome
    else .passApp
  | none => .passApp

/-! ## C5: `ContainerEngineClient.create_or_replace_container` (`src/container/engine.py`) -/

/-- A container as the engine tracks it for C5: engine id and name. -/
structure EngContainer where
  id : Str
  name : Str
deriving DecidableEq

/-- Container engine state: the list of existing containers. -/
structure Eng where
  containers : List EngContainer
deriving DecidableEq

/-- Engine mutations performed by an operation, in order. -/
inductive EngAction where
  | deleteAct (id : Str)
  | createAct (name : Str) (id : Str)
deriving DecidableEq

instance exceptDecEq {ε α : Type} [DecidableEq ε] [DecidableEq α] :
    DecidableEq (Except ε α)
  | .error e, .error f =>
    if h : e = f then isTrue (by rw [h]) else isFalse (by simp [h])
  | .error _, .ok _ => isFalse (by simp)
  | .ok _, .error _ => isFalse (by simp)
  | .ok a, .ok b =>
    if h : a = b then isTrue (by rw [h]) else isFalse (by simp [h])

/-- Outcome of an engine operation: final engine state, the mutations that ran,
and the returned container or the raised error message. -/
structure EngOutcome where
  state : Eng
  trace : List EngAction
  result : Except Str EngContainer
deriving DecidableEq

/-- `list_containers(partial_name=...)`: the engine name filter keeps every
container whose name contains the given string as a substring. -/
def listByPartialName (s : Eng) (pname : Str) : List EngContainer :=
  s.containers.filter (fun c => decide (pname <:+: c.name))

/-- `delete_container(id)` / `container rm --force`: remove the container with that id. -/
def deleteContainerEng (s : Eng) (cid : Str) : Eng :=
  ⟨s.containers.filter (fun c => decide (c.id ≠ cid))⟩

/-- `create_container(name=...)`: the engine runs a new container and assigns it a
fresh id (a parameter of the embedding); the created container is then inspected
and returned. -/
def createContainerEng (s : Eng) (nm freshId : Str) : Eng × EngContainer :=
  let c : EngContainer := ⟨freshId, nm⟩
  (⟨s.containers ++ [c]⟩, c)

/-- Embedding of `ContainerEngineClient.create_or_replace_container`: list containers
matching the name; more than one is an error; exactly one is deleted first; then the
new container is created. -/
def createOrReplaceContainer (s : Eng) (nm freshId : Str) : EngOutcome :=
  let found := listByPartialName s nm
  if 1 < found.length then
    { state := s, trace := [],
      result := .error ("Replace failed: multiple containers found for name".toList) }
  else
    match found with
    | [] =>
      let sc := createContainerEng s nm freshId
      { state := sc.1, trace := [.createAct nm freshId], result := .ok sc.2 }
    | c0 :: _ =>
      let s1 := deleteContainerEng s c0.id
      let sc := createContainerEng s1 nm freshId
      { state := sc.1, trace := [.deleteAct c0.id, .createAct nm freshId], result := .ok sc.2 }

/-! ## C6: `GetgatherAuthTokenVerifier.verify_token` (`src/auth/getgather_oauth_token.py`) -/

/-- Python `token.split("_")`: split at every underscore, keeping empty parts. -/
def splitUnderscore : Str → List Str
  | [] => [[]]
  | c :: rest =>
    if c = '_' then [] :: splitUnderscore rest
    else
      match splitUnderscore rest with
      | [] => [[c]]
      | h :: t => (c :: h) :: t

/-- Python `"_".join(parts)`. -/
def joinUnderscore : List Str → Str
  | [] => []
  | [p] => p
  | p :: ps => p ++ '_' :: joinUnderscore ps

/-- First character class of `GETGATHER_USER_ID_PATTERN`: `[a-zA-Z0-9]`. -/
def isC1 (c : Char) : Bool := c.isAlphanum

/-- Later character class of `GETGATHER_USER_ID_PATTERN`: `[a-zA-Z0-9_.-]`. -/
def isC2 (c : Char) : Bool := c.isAlphanum || c = '_' || c = '.' || c = '-'

/-- The anchored regex body `^[a-zA-Z0-9][a-zA-Z0-9_.-]*$` on an exact string. -/
def userIdCore : Str → Bool
  | [] => false
  | c :: rest => isC1 c && rest.all isC2

/-- Python `GETGATHER_USER_ID_PATTERN.match(sub)` is truthy: with `re`, the final `$`
also matches just before a single trailing newline. -/
def matchesUserIdPattern (s : Str) : Bool :=
  userIdCore (if s.getLast? = some '\n' then s.dropLast else s)

/-- The access token produced by the first-party verifier, with the claims dict
`{sub, app_name, auth_provider}` flattened into fields. -/
structure AccessTokenM where
  token : Str
  clientId : Str
  scopes : List Str
  sub : Str
  appName : Str
  authProvider : Str
deriving DecidableEq

/-- `OAUTH_SCOPES` from `src/auth/constants.py`. -/
def oauthScopes : List Str := ["getgather_user_scope".toList]

def getgatherPrefixLit : Str := "getgather".toList

/-- Embedding of `GetgatherAuthTokenVerifier.verify_token`: split the token on
underscores; require at least 3 parts, first part `getgather`, second part a key of
the `GETGATHER_APPS` allow-list (an association list `app_key -> app_name`); the
remaining parts re-joined with underscores must match the user-id pattern. -/
def verifyGetgatherToken (apps : List (Str × Str)) (token : Str) : Option AccessTokenM :=
  match splitUnderscore token with
  | p0 :: p1 :: rest =>
    if p0 = getgatherPrefixLit ∧ rest ≠ [] then
      (apps.lookup p1).bind (fun appName =>
        let sub := joinUnderscore rest
        if matchesUserIdPattern sub then
          some { token := token, clientId := p1, scopes := oauthScopes,
                 sub := sub, appName := appName, authProvider := getgatherPrefixLit }
        else none)
    else none
  | _ => none

/-- The shape the claim ascribes to accepted tokens:
`getgather_{app_key}_{user_sub}` with `app_key` a key of the allow-list mapped to
`app_name`, and `user_sub` matching the user-id pattern. -/
def claimTokenShape (apps : List (Str × Str)) (token : Str) : Prop :=
  ∃ appKey userSub, token = getgatherPrefixLit ++ '_' :: (appKey ++ '_' :: userSub)
    ∧ (apps.lookup appKey).isSome ∧ matchesUserIdPattern userSub

/-- The corrected shape: additionally `app_key` contains no underscore, because the
verifier always takes the segment between the first and second underscore as the
app key. -/
def claimTokenShapeAmended (apps : List (Str × Str)) (token : Str) : Prop :=
  ∃ appKey userSub, token = getgatherPrefixLit ++ '_' :: (appKey ++ '_' :: userSub)
    ∧ '_' ∉ appKey ∧ (apps.lookup appKey).isSome ∧ matchesUserIdPattern userSub

/-! ## C3: the `POST /admin/reload` handler (`src/main.py`) -/

/-- The two container operations the reload handler can run, in order. -/
inductive AdminOp where
  | pullImage
  | recreateAll
deriving DecidableEq

structure ReloadResponse where
  status : Nat
  ops : List AdminOp
deriving DecidableEq

/-- Embedding of the `/admin/reload` handler: read the `x-admin-token` header
(`none` when absent); `if not token or token != settings.ADMIN_API_TOKEN` raise
HTTP 401 before any container operation (`not token` is also true for an empty
header value); otherwise pull the fresh container image, then recreate all
containers. -/
def reloadContainersHandler (adminApiToken : Str) (tokenHeader : Option Str) :
    ReloadResponse :=
  match tokenHeader with
  | none => { status := 401, ops := [] }
  | some t =>
    if t = [] ∨ t ≠ adminApiToken then { status := 401, ops := [] }
    else { status := 200, ops := [.pullImage, .recreateAll] }

/-- A container as `recreate_all_containers` sees it: its hostname and whether the
assigned user is persistent (`auth_provider != "getgather"`); standby containers
count as persistent re-creations of their empty mount. -/
structure KnownContainer where
  hostname : Str
  persistent : Bool
deriving DecidableEq

inductive RecreateAction where
  | recreateFromMount (hostname : Str)
  | recheckpoint (hostname : Str)
  | purgeQuarantine (hostname : Str)
  | refreshStandby
deriving DecidableEq

/-- Modelled from the spec: `ContainerManager.recreate_all_containers` is invoked by
the reload handler in `src/main.py` but its definition is not among the provided
sources (the provided `src/container/manager.py` is an older variant without it).
Spec §4.4.2: "for every known container: if persistent, re-create from its
`mount_dir` then re-checkpoint; if one-time, purge. Then refresh the standby
pool." -/
def recreateAllContainers (known : List KnownContainer) : List RecreateAction :=
  (known.flatMap (fun c =>
    if c.persistent then [.recreateFromMount c.hostname, .recheckpoint c.hostname]
    else [.purgeQuarantine c.hostname])) ++ [.refreshStandby]

/-! ## C1: `engine_client` / `docker_client` nested sessions
(`src/container/engine.py`, `src/docker.py`) -/

/-- A Python exception value: a plain exception, or an ExceptionGroup with its
member exceptions. -/
inductive PyExc where
  | plain (msg : Str)
  | group (msg : Str) (excs : List PyExc)

inductive LockMode where
  | readMode
  | writeMode
deriving DecidableEq

/-- What one `engine_client(...)` invocation does, observed from outside: the locks
it acquired and released, and what the `async with` statement re-raises after the
generator's `finally` ran (`none` = nothing, i.e. any body exception was
suppressed). -/
structure SessionResult where
  acquired : List LockMode
  released : List LockMode
  raised : Option PyExc

/-- Embedding of the `engine_client` async context manager (`docker_client` in
`src/docker.py` has the identical structure). `nested` is `client is not None`;
`bodyExc` is the exception escaping the `with` body, thrown into the generator at
the `yield` and appended to the invocation-local `exceptions` list. In the nested
case the `finally` block executes `return`, so the generator ends without
re-raising and the context manager suppresses the captured exception; otherwise the
lock is released and the collected exceptions are re-raised (one directly, several
as an ExceptionGroup). The nested-entry lock-upgrade validation happens before this
modelled region and is omitted. -/
def engineClientSession (nested : Bool) (lock : Option LockMode)
    (bodyExc : Option PyExc) : SessionResult :=
  let exceptions : List PyExc := match bodyExc with | none => [] | some e => [e]
  if nested then
    { acquired := [], released := [], raised := none }
  else
    let locks := match lock with | none => [] | some m => [m]
    { acquired := locks, released := locks,
      raised := match exceptions with
        | [] => none
        | [e] => some e
        | es => some (.group
            ("Multiple exceptions occurred during container engine operations".toList)
            es) }

/-- The C1 scenario: an outer writer-lock session whose body consists of a nested
session whose body raises `e`. The nested context manager suppresses `e`, so the
outer body completes without an exception and the outer session is exited with
`bodyExc = none`. -/
def nestedFailureScenario (e : PyExc) : SessionResult × SessionResult :=
  let inner := engineClientSession true none (some e)
  let outer := engineClientSession false (some .writeMode) inner.raised
  (inner, outer)

/-! ## File-system model, shared by C2, C4, C9 and C10 -/

/-- A host filesystem path, as its list of components. -/
abbrev FPath := List Str

/-- Users as the container subsystem sees them (`AuthUser` in `src/auth/auth.py`). -/
structure AuthUserM where
  sub : Str
  authProvider : Str
deriving DecidableEq

/-- `AuthUser.user_id`: `f"{self.sub}.{self.auth_provider}"`. -/
def AuthUserM.userId (u : AuthUserM) : Str := u.sub ++ '.' :: u.authProvider

/-- Contents of a file: a parsed `metadata.json` (the embedding treats the JSON
round-trip of `ContainerMetadata` as the identity) or opaque bytes. -/
inductive FileData where
  | metadataJson (user : AuthUserM)
  | rawData (contents : Str)
deriving DecidableEq

/-- Host filesystem state: existing directories, and file contents by path. -/
structure FSState where
  dirs : List FPath
  files : List (FPath × FileData)
deriving DecidableEq

/-- `settings.container_mount_parent_dir` = `{DATA_DIR}/container_mounts`. -/
def containerMountParentDir : FPath := ["DATA_DIR".toList, "container_mounts".toList]

/-- `settings.cleanup_container_mount_parent_dir` = `{mount_parent}/__cleanup`. -/
def cleanupMountParentDir : FPath := containerMountParentDir ++ ["__cleanup".toList]

/-- `path.exists()`: the path is a directory or a file. -/
def pathExists (fs : FSState) (p : FPath) : Bool :=
  decide (p ∈ fs.dirs) || (fs.files.lookup p).isSome

/-- The ancestors `mkdir(parents=True)` still has to create: nonempty prefixes that
do not exist yet. -/
def mkdirKeep (fs : FSState) (q : FPath) : Bool := decide (q ≠ [] ∧ q ∉ fs.dirs)

/-- `path.mkdir(parents=True, exist_ok=True)`: create the directory together with
any missing ancestors. -/
def mkdirParents (fs : FSState) (p : FPath) : FSState :=
  { fs with dirs := fs.dirs ++ p.inits.filter (mkdirKeep fs) }

/-- Embedding of `Container.mount_dir_for_hostname` (`src/container/container.py`):
`{mount_parent}/{hostname}`, created on first access; returns the updated
filesystem and the path. -/
def mountDirForHostname (fs : FSState) (hostname : Str) : FSState × FPath :=
  let p := containerMountParentDir ++ [hostname]
  if pathExists fs p then (fs, p) else (mkdirParents fs p, p)

def metadataJsonLit : Str := "metadata.json".toList

/-- Embedding of `Container.metadata_file_for_hostname`:
`mount_dir_for_hostname(hostname) / "metadata.json"` (the mount-directory
resolution can create the directory). -/
def metadataFileForHostname (fs : FSState) (hostname : Str) : FSState × FPath :=
  let fp := mountDirForHostname fs hostname
  (fp.1, fp.2 ++ [metadataJsonLit])

/-- `ContainerMetadata`: the persisted `{user: AuthUser}` document. -/
structure ContainerMetadataM where
  user : AuthUserM
deriving DecidableEq

/-- Embedding of `ContainerService.read_metadata`: resolve the metadata path (which
creates the mount directory when absent), answer `none` when the file does not
exist, otherwise parse it (non-metadata contents raise a validation error). -/
def readMetadata (fs : FSState) (hostname : Str) :
    FSState × Except Str (Option ContainerMetadataM) :=
  let fp := metadataFileForHostname fs hostname
  match fp.1.files.lookup fp.2 with
  | none => (fp.1, .ok none)
  | some (.metadataJson u) => (fp.1, .ok (some ⟨u⟩))
  | some (.rawData _) => (fp.1, .error ("validation error".toList))

/-- `shutil.move(src, dst)` on a directory tree (with `dst` not yet existing):
every path below `src` is re-rooted below `dst`. -/
def reroot (src dst p : FPath) : FPath :=
  if src <+: p then dst ++ p.drop src.length else p

/-- Filesystem effect of `shutil.move(src, dst)`. -/
def movePath (fs : FSState) (src dst : FPath) : FSState :=
  { dirs := fs.dirs.map (reroot src dst),
    files := fs.files.map (fun kv => (reroot src dst kv.1, kv.2)) }

/-- Filesystem effect of `shutil.rmtree(p)`: drop every path at or below `p`. -/
def removeTree (fs : FSState) (p : FPath) : FSState :=
  { dirs := fs.dirs.filter (fun d => decide (¬ p <+: d)),
    files := fs.files.filter (fun kv => decide (¬ p <+: kv.1)) }

/-! ## Container service / manager state model (C2, C4, C9) -/

/-- A container as returned by engine inspection: 12-char id, name, hostname,
running status and start time (seconds). -/
structure ContainerM where
  id : Str
  name : Str
  hostname : Str
  running : Bool
  startedAt : Nat
deriving DecidableEq

/-- Engine state for the container service: the containers that exist. -/
structure EngineState where
  containers : List ContainerM
deriving DecidableEq

def unassignedLit : Str := "UNASSIGNED".toList

/-- `_container_name_for_user(hostname, user=None)`: `UNASSIGNED-{hostname}`. -/
def unassignedNameFor (hostname : Str) : Str := unassignedLit ++ '-' :: hostname

/-- `ContainerIdentity(hostname, user).container_name`: `{user_id}-{hostname}`. -/
def assignedNameFor (u : AuthUserM) (hostname : Str) : Str :=
  u.userId ++ '-' :: hostname

/-- Engine `--filter name=...`: containers whose name contains the string. -/
def listByPartial (s : EngineState) (pname : Str) : List ContainerM :=
  s.containers.filter (fun c => decide (pname <:+: c.name))

/-- `container rm --force {id}`. -/
def deleteById (s : EngineState) (cid : Str) : EngineState :=
  ⟨s.containers.filter (fun c => decide (c.id ≠ cid))⟩

/-- `container rename {id} {new_name}`. -/
def renameById (s : EngineState) (cid newName : Str) : EngineState :=
  ⟨s.containers.map (fun c => if c.id = cid then { c with name := newName } else c)⟩

/-- `get_container(id=...)`: inspect a container by id. -/
def getById (s : EngineState) (cid : Str) : Option ContainerM :=
  s.containers.find? (fun c => decide (c.id = cid))

/-- `_is_container_ready`: running, and started more than
`CONTAINER_STARTUP_SECONDS = 20` seconds ago. -/
def isContainerReady (now : Nat) (c : ContainerM) : Bool :=
  c.running && decide (c.startedAt + 20 < now)

/-- `get_containers(partial_name=..., only_ready=...)` of the service/manager:
list by partial name (all containers carry the compose labels), optionally keeping
only ready ones. -/
def getContainersSvc (s : EngineState) (now : Nat) (pname : Option Str)
    (onlyReady : Bool) : List ContainerM :=
  let cs := match pname with
    | none => s.containers
    | some pn => listByPartial s pn
  if onlyReady then cs.filter (isContainerReady now) else cs

/-- The ready standby pool: `get_containers(partial_name="UNASSIGNED")` with the
default readiness filter. -/
def standbyPool (s : EngineState) (now : Nat) : List ContainerM :=
  getContainersSvc s now (some unassignedLit) true

/-- `get_random_unassigned_container`: raise when the (ready) pool is empty,
otherwise pick a member; `random.choice` is embedded as selection by an index
parameter. -/
def getRandomUnassigned (s : EngineState) (now : Nat) (idx : Nat) :
    Except Str ContainerM :=
  match standbyPool s now with
  | [] => .error ("No unassigned containers found".toList)
  | c0 :: rest => .ok ((c0 :: rest).getD idx c0)

/-- `_write_metadata(container, user)`: open `container.metadata_file` for writing
(resolving it can create the mount directory) and replace its contents with the
serialized `ContainerMetadata`. -/
def writeMetadataSvc (fs : FSState) (c : ContainerM) (u : AuthUserM) : FSState :=
  let fp := metadataFileForHostname fs c.hostname
  { fp.1 with
    files := (fp.2, FileData.metadataJson u)
      :: fp.1.files.filter (fun kv => decide (kv.1 ≠ fp.2)) }

/-- Outcome of a service/manager operation: the engine and filesystem afterwards,
and the returned container or raised error. -/
structure SvcOutcome where
  eng : EngineState
  fs : FSState
  result : Except Str ContainerM
deriving DecidableEq

/-- Embedding of `ContainerService.assign_container` (`src/container/service.py`):
under the writer lock, pick a random ready standby (raising when there is none,
before any mutation), rename it to `{user_id}-{hostname}`, re-inspect it by id to
refresh its attributes, write `metadata.json`, and return the refreshed container. -/
def assignContainerSvc (s : EngineState) (fs : FSState) (now : Nat) (user : AuthUserM)
    (idx : Nat) : SvcOutcome :=
  match getRandomUnassigned s now idx with
  | .error e => { eng := s, fs := fs, result := .error e }
  | .ok c =>
    let s1 := renameById s c.id (assignedNameFor user c.hostname)
    match getById s1 c.id with
    | none => { eng := s1, fs := fs, result := .error ("Failed to inspect containers".toList) }
    | some c1 =>
      { eng := s1, fs := writeMetadataSvc fs c1 user, result := .ok c1 }

/-- Embedding of `ContainerManager._assign_container` (`src/container/manager.py`):
like the service version but without the re-inspection — the stale pre-rename
container object is returned, and metadata is written for it. -/
def assignContainerMgr (s : EngineState) (fs : FSState) (now : Nat) (user : AuthUserM)
    (idx : Nat) : SvcOutcome :=
  match getRandomUnassigned s now idx with
  | .error e => { eng := s, fs := fs, result := .error e }
  | .ok c =>
    let s1 := renameById s c.id (assignedNameFor user c.hostname)
    { eng := s1, fs := writeMetadataSvc fs c user, result := .ok c }

/-- Embedding of `ContainerManager._get_container`: list by partial name with
`only_ready=False`; more than one match raises; otherwise the optional single
match. -/
def mgrGetContainer (s : EngineState) (pname : Str) :
    Except Str (Option ContainerM) :=
  let cs := listByPartial s pname
  if 1 < cs.length then .error ("Multiple containers found".toList)
  else .ok cs.head?

/-- Embedding of `ContainerService.purge_container` (`src/container/service.py`):
delete the container from the engine, ensure the `__cleanup` quarantine parent
exists (a side effect of the `cleanup_container_mount_parent_dir` settings
property), and `shutil.move` the mount directory to
`{mount_parent}/__cleanup/{hostname}`. -/
def purgeContainerSvc (s : EngineState) (fs : FSState) (c : ContainerM) :
    EngineState × FSState :=
  let s1 := deleteById s c.id
  let fs1 := if pathExists fs cleanupMountParentDir then fs
             else mkdirParents fs cleanupMountParentDir
  let fsp := mountDirForHostname fs1 c.hostname
  let dst := cleanupMountParentDir ++ [c.hostname]
  (s1, movePath fsp.1 fsp.2 dst)

/-- Embedding of `ContainerManager._purge_container` (`src/container/manager.py`):
look the container up by name (exactly one partial-name match required), delete it
from the engine, and `shutil.rmtree` its mount directory. -/
def purgeContainerMgr (s : EngineState) (fs : FSState) (hostname : Str) :
    EngineState × FSState × Except Str Unit :=
  let found := listByPartial s hostname
  match found with
  | [] => (s, fs, .error ("No container found for name".toList))
  | [c] =>
    let s1 := deleteById s c.id
    let fsp := mountDirForHostname fs c.hostname
    (s1, removeTree fsp.1 fsp.2, .ok ())
  | _ :: _ :: _ => (s, fs, .error ("Multiple containers found for name".toList))

/-- Embedding of the fresh-standby create of
`ContainerManager._create_or_replace_container_impl` with `mount_dir=None`: resolve
(and thereby create) the mount directory of the fresh hostname, then run the
engine-level `create_or_replace_container` with name `UNASSIGNED-{hostname}`:
more than one partial-name match raises, a single match is deleted first, then the
container is started with a fresh engine id and inspected. -/
def createStandbyMgr (s : EngineState) (fs : FSState) (now : Nat)
    (hostname freshId : Str) : EngineState × FSState × Except Str ContainerM :=
  let nm := unassignedNameFor hostname
  let fsp := mountDirForHostname fs hostname
  let found := listByPartial s nm
  if 1 < found.length then
    (s, fsp.1, .error ("Replace failed: multiple containers found for name".toList))
  else
    let s1 := match found with
      | [] => s
      | c0 :: _ => deleteById s c0.id
    let newC : ContainerM :=
      { id := freshId, name := nm, hostname := hostname, running := true,
        startedAt := now }
    (⟨s1.containers ++ [newC]⟩, fsp.1, .ok newC)

/-- The sequential creation loop of `backfill_container_pool`; the fresh hostname
and engine id of each new standby are parameters. A raised error aborts the loop
and propagates. -/
def backfillCreate : EngineState → FSState → Nat → List (Str × Str) →
    EngineState × FSState × Except Str Unit
  | s, fs, _, [] => (s, fs, .ok ())
  | s, fs, now, (h, fid) :: rest =>
    match createStandbyMgr s fs now h fid with
    | (s1, fs1, .error e) => (s1, fs1, .error e)
    | (s1, fs1, .ok _) => backfillCreate s1 fs1 now rest

/-- Embedding of `ContainerManager.backfill_container_pool`: count the UNASSIGNED
containers (`only_ready=False`) and sequentially create
`MIN_CONTAINER_POOL_SIZE - count` fresh standby containers. -/
def backfillContainerPool (s : EngineState) (fs : FSState) (now minPool : Nat)
    (fresh : List (Str × Str)) : EngineState × FSState × Except Str Unit :=
  let count := (getContainersSvc s now (some unassignedLit) false).length
  backfillCreate s fs now (fresh.take (minPool - count))

/-- Embedding of `ContainerManager.get_user_container`: look up the single
container whose name contains `user.user_id` and return it when found; otherwise,
under the writer lock, `_assign_container` a standby and backfill the pool. -/
def getUserContainer (s : EngineState) (fs : FSState) (now : Nat) (user : AuthUserM)
    (idx minPool : Nat) (fresh : List (Str × Str)) : SvcOutcome :=
  match mgrGetContainer s user.userId with
  | .error e => { eng := s, fs := fs, result := .error e }
  | .ok (some c) => { eng := s, fs := fs, result := .ok c }
  | .ok none =>
    let a := assignContainerMgr s fs now user idx
    match a.result with
    | .error _ => a
    | .ok c =>
      match backfillContainerPool a.eng a.fs now minPool fresh with
      | (s2, fs2, .error e) => { eng := s2, fs := fs2, result := .error e }
      | (s2, fs2, .ok _) => { eng := s2, fs := fs2, result := .ok c }

/-! ## C7: proxy template rendering (`src/residential_proxy_sessions.py`) -/

/-- The scanner of `re.findall(r"\{([^}]+)\}", template)`, as a character machine:
outside a brace, `{` opens a candidate match; inside one, the greedy `[^}]+` keeps
consuming non-`}` characters (further `{` are ordinary characters); a `}` closes a
match when at least one character was consumed, otherwise (`{}`) no match is
produced and scanning continues after the `}`; an unclosed `{` produces nothing
(no `}` remains, so no later position can match either). Returns the matched
groups in order, exactly as `re.findall` does. -/
def scanPlaceholders : Str → Option Str → List Str
  | [], _ => []
  | c :: rest, none =>
    if c = '{' then scanPlaceholders rest (some [])
    else scanPlaceholders rest none
  | c :: rest, some acc =>
    if c = '}' then
      if acc = [] then scanPlaceholders rest none
      else acc :: scanPlaceholders rest none
    else scanPlaceholders rest (some (acc ++ [c]))

/-- `re.findall(r"\{([^}]+)\}", template)`. -/
def findPlaceholders (template : Str) : List Str :=
  scanPlaceholders template none

/-- Python `current.partition(sep)`, dropping the middle component: `(before,
after)` around the first occurrence of `sep`, or `(current, "")` when absent. -/
def partitionAt (sep : Str) : Str → Str × Str
  | [] => ([], [])
  | c :: rest =>
    if sep.isPrefixOf (c :: rest) then ([], (c :: rest).drop sep.length)
    else
      let r := partitionAt sep rest
      (c :: r.1, r.2)

/-- The loop body of `_build_params`: for each placeholder in order, split
`current` at its first occurrence; keep `before + str(value)` when the placeholder
has a value, drop the segment otherwise; finally keep any trailing text. -/
def buildLoop (values : List (Str × Str)) :
    List Str → Str → List Str → List Str
  | [], current, parts => if current ≠ [] then parts ++ [current] else parts
  | ph :: rest, current, parts =>
    let pr := partitionAt ('{' :: (ph ++ ['}'])) current
    match values.lookup ph with
    | some v => buildLoop values rest pr.2 (parts ++ [pr.1 ++ v])
    | none => buildLoop values rest pr.2 parts

def isSepChar (c : Char) : Bool := c = '-' || c = '_'

/-- Python `result.strip("-_")`. -/
def stripDashUnderscore (s : Str) : Str :=
  ((s.dropWhile isSepChar).reverse.dropWhile isSepChar).reverse

/-- Embedding of `_build_params(template, profile_id, location)` with the value
dict already built: find the placeholders, run the segment loop, join, and strip
leading/trailing `-`/`_`. -/
def buildParams (template : Str) (values : List (Str × Str)) : Str :=
  stripDashUnderscore
    (buildLoop values (findPlaceholders template) template []).join

/-- An unresolved `{x}` placeholder text occurs in `s` (`x` nonempty and
brace-free, the shape matched by the template regex). -/
def hasPlaceholder (s : Str) : Prop :=
  ∃ a p b, p ≠ [] ∧ '}' ∉ p ∧ s = a ++ '{' :: (p ++ '}' :: b)

/-- Helper invariant: every `{` in the string is immediately closed by `}` or is
never followed by any `}` at all — such a string contains no `{x}` placeholder. -/
def tame : Str → Bool
  | [] => true
  | c :: rest =>
    if c = '{' then
      match rest with
      | [] => true
      | d :: rest2 => if d = '}' then tame rest2 else decide ('}' ∉ rest)
    else tame rest

/-- Helper invariant for the text between two matches: every `{` is immediately
followed by `}` (inside the gap), and the gap does not end in `{`. -/
def gapOK : Str → Bool
  | [] => true
  | c :: rest =>
    if c = '{' then
      match rest with
      | [] => false
      | d :: rest2 => if d = '}' then gapOK rest2 else false
    else gapOK rest

/-- The claim-side renderer, written from the claim's words: walk the template
segment by segment (the text up to each placeholder); a segment whose placeholder
resolves is kept with the value substituted, a segment whose placeholder has no
value is dropped entirely; trailing text after the last placeholder is kept. -/
def renderSpec (values : List (Str × Str)) (s : Str) : Str :=
  match hph : findPlaceholders s with
  | [] => s
  | ph :: _ =>
    let pr := partitionAt ('{' :: (ph ++ ['}'])) s
    (match values.lookup ph with
     | some v => pr.1 ++ v
     | none => []) ++ renderSpec values pr.2
termination_by s.length
decreasing_by
  have hs : s ≠ [] := by
    intro he
    rw [he] at hph
    exact absurd hph (by simp [findPlaceholders, scanPlaceholders])
  have key : ∀ (sep : Str), sep ≠ [] → ∀ t : Str, t ≠ []
      → (partitionAt sep t).2.length < t.length := by
    intro sep hsep t
    induction t with
    | nil => intro ht; exact absurd rfl ht
    | cons c rest ih =>
      intro _
      rw [partitionAt]
      by_cases hp : sep.isPrefixOf (c :: rest) = true
      · rw [if_pos hp]
        have hlen : 0 < sep.length := List.length_pos.mpr hsep
        simp only [List.length_drop, List.length_cons]
        omega
      · rw [if_neg hp]
        show (partitionAt sep rest).2.length < (c :: rest).length
        by_cases hre : rest = []
        · subst hre
          simp [partitionAt]
        · have hlt := ih hre
          simp only [List.length_cons]
          omega
  exact key ('{' :: (ph ++ ['}'])) (by simp) s hs

/-! Location model for the template values (`Location.to_template_values`). -/

/-- Python truthiness of an optional string: present and nonempty. -/
def truthy : Option Str → Bool
  | some (_ :: _) => true
  | _ => false

def lowerStr (s : Str) : Str := s.map Char.toLower

def spaceToUnderscore (s : Str) : Str :=
  s.map (fun c => if c = ' ' then '_' else c)

/-- `Location` (after `model_post_init`): optional country, state, city,
compacted city and postal code. -/
structure LocationM where
  country : Option Str
  state : Option Str
  city : Option Str
  cityCompacted : Option Str
  postalCode : Option Str
deriving DecidableEq

/-- Embedding of `Location.to_template_values`: lowercase the country; include the
state (lowercased, spaces to underscores) only for US; lowercase the city with
spaces to underscores, plus the compacted city when present; include the postal
code verbatim. Falsy (absent or empty) fields are omitted. -/
def LocationM.toTemplateValues (l : LocationM) : List (Str × Str) :=
  (match l.country with
   | some (c :: cs) =>
     ("country".toList, lowerStr (c :: cs)) ::
       (match l.state with
        | some (s1 :: ss) =>
          if lowerStr (c :: cs) = "us".toList then
            [("state".toList, spaceToUnderscore (lowerStr (s1 :: ss)))]
          else []
        | _ => [])
   | _ => []) ++
  (match l.city with
   | some (c :: cs) =>
     ("city".toList, spaceToUnderscore (lowerStr (c :: cs))) ::
       (match l.cityCompacted with
        | some (d :: ds) => [("city_compacted".toList, d :: ds)]
        | _ => [])
   | _ => []) ++
  (match l.postalCode with
   | some (p :: ps) => [("postal_code".toList, p :: ps)]
   | _ => [])

/-- The value dict of `_build_params`: `{"session_id": profile_id}` updated with
the location's template values. -/
def buildParamsValues (profileId : Str) (loc : Option LocationM) :
    List (Str × Str) :=
  ("session_id".toList, profileId)
    :: (match loc with
        | some l => l.toTemplateValues
        | none => [])

def notRBrace : Char → Bool := fun d => decide (d ≠ '}')

/-! ## Theorems -/

/-! ## Theorems for C8 and C5 -/

/-- C8: for every request handled by the MCP auth middleware, if the path starts with
`/mcp` and the Accept header does not contain `text/event-stream`, the action is the
307 redirect to `/`; if the path starts with `/mcp` and Accept does contain it, the
request goes to bearer-token authentication; if the path does not start with `/mcp`
(including a missing path), the request is passed to the inner application. -/
theorem c8_mcp_auth_middleware_routing (req : ScopeReq) :
    ((∃ p, req.path = some p ∧ mcpPathLit <+: p) →
        ((eventStreamLit <:+: (req.accept.getD []) → requireAuthCall req = .bearerAuth)
          ∧ (¬ eventStreamLit <:+: (req.accept.getD []) → requireAuthCall req = .redirectHome)))
    ∧ ((∀ p, req.path = some p → ¬ mcpPathLit <+: p) → requireAuthCall req = .passApp) := by
  obtain ⟨path?, accept?⟩ := req
  constructor
  · rintro ⟨p, hp, hpre⟩
    cases hp
    have hne : p ≠ [] := by
      rintro rfl
      exact absurd (List.eq_nil_of_prefix_nil hpre) (by decide)
    constructor
    · intro hacc
      simp [requireAuthCall, hne, hpre, hacc]
    · intro hacc
      simp [requireAuthCall, hne, hpre, hacc]
  · intro hnot
    match path? with
    | none => rfl
    | some p =>
      have := hnot p rfl
      simp [requireAuthCall, this]

/-- Witness for C8 at a concrete request: a streaming client on `/mcp/x` reaches
bearer authentication. -/
theorem c8_mcp_auth_middleware_routing_witness :
    requireAuthCall ⟨some ("/mcp/x".toList), some ("text/event-stream".toList)⟩
      = .bearerAuth :=
  ((c8_mcp_auth_middleware_routing
      ⟨some ("/mcp/x".toList), some ("text/event-stream".toList)⟩).1
    ⟨("/mcp/x".toList), rfl, by decide⟩).1 (by decide)

/-- C5: `create_or_replace_container(name=n)` is idempotent by name: when exactly one
container matches `n` it is deleted before the new container is created; when more
than one matches, the operation raises and performs no engine mutation; when none
matches, the container is simply created. -/
theorem c5_create_or_replace_idempotent_by_name (s : Eng) (nm freshId : Str) :
    (∀ c, listByPartialName s nm = [c] →
        (createOrReplaceContainer s nm freshId).trace = [.deleteAct c.id, .createAct nm freshId]
        ∧ (createOrReplaceContainer s nm freshId).state.containers
            = (deleteContainerEng s c.id).containers ++ [⟨freshId, nm⟩]
        ∧ (createOrReplaceContainer s nm freshId).result = .ok ⟨freshId, nm⟩)
    ∧ (1 < (listByPartialName s nm).length →
        (∃ msg, (createOrReplaceContainer s nm freshId).result = .error msg)
        ∧ (createOrReplaceContainer s nm freshId).state = s
        ∧ (createOrReplaceContainer s nm freshId).trace = [])
    ∧ (listByPartialName s nm = [] →
        (createOrReplaceContainer s nm freshId).state.containers
            = s.containers ++ [⟨freshId, nm⟩]
        ∧ (createOrReplaceContainer s nm freshId).trace = [.createAct nm freshId]
        ∧ (createOrReplaceContainer s nm freshId).result = .ok ⟨freshId, nm⟩) := by
  refine ⟨?_, ?_, ?_⟩
  · intro c hc
    have hlen : ¬ 1 < (listByPartialName s nm).length := by simp [hc]
    simp [createOrReplaceContainer, hc, hlen, createContainerEng]
  · intro hlen
    have h : createOrReplaceContainer s nm freshId =
        { state := s, trace := [],
          result := .error ("Replace failed: multiple containers found for name".toList) } := by
      simp [createOrReplaceContainer, hlen]
    rw [h]
    exact ⟨⟨_, rfl⟩, rfl, rfl⟩
  · intro hc
    have hlen : ¬ 1 < (listByPartialName s nm).length := by simp [hc]
    simp [createOrReplaceContainer, hc, hlen, createContainerEng]

/-- Witness for C5 at a concrete engine state with a single matching container:
`old1` is replaced by a fresh container named `n1`. -/
theorem c5_create_or_replace_idempotent_by_name_witness :
    (createOrReplaceContainer ⟨[⟨"old1".toList, "n1".toList⟩]⟩ ("n1".toList) ("new2".toList)).trace
      = [.deleteAct ("old1".toList), .createAct ("n1".toList) ("new2".toList)] :=
  ((c5_create_or_replace_idempotent_by_name ⟨[⟨"old1".toList, "n1".toList⟩]⟩
      ("n1".toList) ("new2".toList)).1 ⟨"old1".toList, "n1".toList⟩ (by decide)).1

theorem splitUnderscore_ne_nil (s : Str) : splitUnderscore s ≠ [] := by
  induction s with
  | nil => simp [splitUnderscore]
  | cons c rest ih =>
    by_cases h : c = '_'
    · simp [splitUnderscore, h]
    · simp only [splitUnderscore, if_neg h]
      match hm : splitUnderscore rest with
      | [] => simp
      | x :: t => simp

theorem underscore_not_mem_splitUnderscore (s : Str) :
    ∀ p ∈ splitUnderscore s, '_' ∉ p := by
  induction s with
  | nil => simp [splitUnderscore]
  | cons c rest ih =>
    by_cases h : c = '_'
    · simp only [splitUnderscore, if_pos h, List.mem_cons]
      rintro p (rfl | hp)
      · simp
      · exact ih p hp
    · simp only [splitUnderscore, if_neg h]
      match hm : splitUnderscore rest with
      | [] =>
        intro p hp
        simp only [List.mem_singleton] at hp
        subst hp
        simp only [List.mem_singleton]
        exact fun hh => h hh.symm
      | x :: t =>
        simp only [List.mem_cons]
        rintro p (rfl | hp)
        · have hx : '_' ∉ x := ih x (by rw [hm]; exact List.mem_cons_self x t)
          simp only [List.mem_cons]
          rintro (hc | hc)
          · exact h hc.symm
          · exact hx hc
        · exact ih p (by rw [hm]; exact List.mem_cons_of_mem x hp)

theorem joinUnderscore_cons (p : Str) (ps : List Str) (hps : ps ≠ []) :
    joinUnderscore (p :: ps) = p ++ '_' :: joinUnderscore ps := by
  match ps with
  | [] => exact absurd rfl hps
  | q :: t => rfl

theorem joinUnderscore_splitUnderscore (s : Str) :
    joinUnderscore (splitUnderscore s) = s := by
  induction s with
  | nil => simp [splitUnderscore, joinUnderscore]
  | cons c rest ih =>
    by_cases h : c = '_'
    · simp only [splitUnderscore, if_pos h]
      rw [joinUnderscore_cons _ _ (splitUnderscore_ne_nil rest), ih]
      simp [h]
    · simp only [splitUnderscore, if_neg h]
      match hm : splitUnderscore rest with
      | [] => exact absurd hm (splitUnderscore_ne_nil rest)
      | x :: t =>
        rw [hm] at ih
        match t with
        | [] =>
          simp only [joinUnderscore] at ih ⊢
          rw [ih]
        | y :: t2 =>
          rw [joinUnderscore_cons _ _ (by simp)] at ih
          rw [joinUnderscore_cons _ _ (by simp), ← ih]
          rfl

theorem splitUnderscore_no_underscore (a : Str) (ha : '_' ∉ a) :
    splitUnderscore a = [a] := by
  induction a with
  | nil => rfl
  | cons c rest ih =>
    have hc : c ≠ '_' := fun h => ha (h ▸ List.mem_cons_self c rest)
    have hrest : '_' ∉ rest := fun h => ha (List.mem_cons_of_mem c h)
    simp only [splitUnderscore, if_neg hc, ih hrest]

theorem splitUnderscore_append_underscore (a b : Str) (ha : '_' ∉ a) :
    splitUnderscore (a ++ '_' :: b) = a :: splitUnderscore b := by
  induction a with
  | nil => simp [splitUnderscore]
  | cons c rest ih =>
    have hc : c ≠ '_' := fun h => ha (h ▸ List.mem_cons_self c rest)
    have hrest : '_' ∉ rest := fun h => ha (List.mem_cons_of_mem c h)
    simp only [List.cons_append, splitUnderscore]
    rw [if_neg hc]
    have hr : splitUnderscore (rest.append ('_' :: b)) = rest :: splitUnderscore b :=
      ih hrest
    rw [hr]

/-- C6 counterexample: with the allow-list `{"a_b": "appx"}` the token
`getgather_a_b_c` has the claimed shape (`app_key = "a_b"` is a configured key and
`user_sub = "c"` matches the pattern), yet the verifier rejects it, because it
splits on every underscore and looks up only the second segment `"a"`. -/
theorem c6_first_party_token_iff_counterexample :
    claimTokenShape [("a_b".toList, "appx".toList)] ("getgather_a_b_c".toList)
    ∧ verifyGetgatherToken [("a_b".toList, "appx".toList)] ("getgather_a_b_c".toList)
        = none := by
  refine ⟨⟨"a_b".toList, "c".toList, by decide, by decide, by decide⟩, by decide⟩

/-- C6 amended: the first-party static verifier accepts a token iff it has the form
`getgather_{app_key}_{user_sub}` where `app_key` is an underscore-free key of the
`GETGATHER_APPS` allow-list and `user_sub` matches `^[a-zA-Z0-9][a-zA-Z0-9_.-]*$`
(with Python `re` semantics for the trailing `$`); on success the produced claims
are `sub = user_sub`, `app_name` the mapped value, `auth_provider = "getgather"`,
and every other token yields `none`. -/
theorem verifyGetgatherToken_eq_of_split (apps : List (Str × Str)) (token : Str)
    (p0 p1 : Str) (rest : List Str) (hm : splitUnderscore token = p0 :: p1 :: rest) :
    verifyGetgatherToken apps token =
      if p0 = getgatherPrefixLit ∧ rest ≠ [] then
        (apps.lookup p1).bind (fun appName =>
          if matchesUserIdPattern (joinUnderscore rest) then
            some { token := token, clientId := p1, scopes := oauthScopes,
                   sub := joinUnderscore rest, appName := appName,
                   authProvider := getgatherPrefixLit }
          else none)
      else none := by
  simp only [verifyGetgatherToken, hm]

theorem verifyGetgatherToken_eq_short (apps : List (Str × Str)) (token : Str)
    (hm : splitUnderscore token = [] ∨ ∃ p0, splitUnderscore token = [p0]) :
    verifyGetgatherToken apps token = none := by
  rcases hm with hm | ⟨p0, hm⟩ <;> simp only [verifyGetgatherToken, hm]

theorem c6_first_party_token_verifier_amended (apps : List (Str × Str)) (token : Str) :
    ((verifyGetgatherToken apps token).isSome ↔ claimTokenShapeAmended apps token)
    ∧ (∀ tk, verifyGetgatherToken apps token = some tk →
        tk.authProvider = getgatherPrefixLit
        ∧ ∃ appKey appName userSub,
            token = getgatherPrefixLit ++ '_' :: (appKey ++ '_' :: userSub)
            ∧ apps.lookup appKey = some appName
            ∧ tk.sub = userSub ∧ tk.appName = appName
            ∧ matchesUserIdPattern userSub) := by
  have hsplit := joinUnderscore_splitUnderscore token
  constructor
  · constructor
    · intro hsome
      match hm : splitUnderscore token with
      | [] => rw [verifyGetgatherToken_eq_short apps token (.inl hm)] at hsome; simp at hsome
      | [p0] =>
        rw [verifyGetgatherToken_eq_short apps token (.inr ⟨p0, hm⟩)] at hsome
        simp at hsome
      | p0 :: p1 :: rest =>
        rw [verifyGetgatherToken_eq_of_split apps token p0 p1 rest hm] at hsome
        by_cases hg : p0 = getgatherPrefixLit ∧ rest ≠ []
        · rw [if_pos hg] at hsome
          match hl : apps.lookup p1 with
          | none => rw [hl, Option.none_bind] at hsome; simp at hsome
          | some appName =>
            rw [hl, Option.some_bind] at hsome
            by_cases hmatch : matchesUserIdPattern (joinUnderscore rest) = true
            · refine ⟨p1, joinUnderscore rest, ?_, ?_, ?_, hmatch⟩
              · rw [hm] at hsplit
                rw [← hsplit, joinUnderscore_cons _ _ (by simp),
                  joinUnderscore_cons _ _ hg.2, hg.1]
              · exact underscore_not_mem_splitUnderscore token p1
                  (by rw [hm]; exact List.mem_cons_of_mem _ (List.mem_cons_self _ _))
              · rw [hl]; rfl
            · rw [if_neg hmatch] at hsome; simp at hsome
        · rw [if_neg hg] at hsome; simp at hsome
    · rintro ⟨appKey, userSub, htok, hus, hkey, hmatch⟩
      have hpref : '_' ∉ getgatherPrefixLit := by decide
      have hm : splitUnderscore token
          = getgatherPrefixLit :: appKey :: splitUnderscore userSub := by
        rw [htok, splitUnderscore_append_underscore _ _ hpref,
          splitUnderscore_append_underscore _ _ hus]
      rw [verifyGetgatherToken_eq_of_split apps token _ _ _ hm,
        if_pos ⟨rfl, splitUnderscore_ne_nil userSub⟩]
      match hl : apps.lookup appKey with
      | none => rw [hl] at hkey; simp at hkey
      | some appName =>
        rw [Option.some_bind, joinUnderscore_splitUnderscore userSub, if_pos hmatch]
        simp
  · intro tk htk
    match hm : splitUnderscore token with
    | [] => rw [verifyGetgatherToken_eq_short apps token (.inl hm)] at htk; simp at htk
    | [p0] =>
      rw [verifyGetgatherToken_eq_short apps token (.inr ⟨p0, hm⟩)] at htk
      simp at htk
    | p0 :: p1 :: rest =>
      rw [verifyGetgatherToken_eq_of_split apps token p0 p1 rest hm] at htk
      by_cases hg : p0 = getgatherPrefixLit ∧ rest ≠ []
      · rw [if_pos hg] at htk
        match hl : apps.lookup p1 with
        | none => rw [hl, Option.none_bind] at htk; simp at htk
        | some appName =>
          rw [hl, Option.some_bind] at htk
          by_cases hmatch : matchesUserIdPattern (joinUnderscore rest) = true
          · rw [if_pos hmatch] at htk
            injection htk with htk
            refine ⟨by rw [← htk], p1, appName, joinUnderscore rest, ?_, hl, ?_, ?_, hmatch⟩
            · rw [hm] at hsplit
              rw [← hsplit, joinUnderscore_cons _ _ (by simp),
                joinUnderscore_cons _ _ hg.2, hg.1]
            · rw [← htk]
            · rw [← htk]
          · rw [if_neg hmatch] at htk; simp at htk
      · rw [if_neg hg] at htk; simp at htk

/-- Witness for the amended C6 at a concrete allow-list and token: the verifier
accepts `getgather_app1_u42` under `{"app1": "My App"}`, so the amended shape holds. -/
theorem c6_first_party_token_verifier_amended_witness :
    claimTokenShapeAmended [("app1".toList, "My App".toList)]
      ("getgather_app1_u42".toList) :=
  (c6_first_party_token_verifier_amended [("app1".toList, "My App".toList)]
    ("getgather_app1_u42".toList)).1.mp (by decide)

/-- C3 counterexample: when the configured `ADMIN_API_TOKEN` is the empty string and
the request carries an `x-admin-token` header with the empty value, the header is
present and equal to the configured secret, yet the handler answers 401 and runs no
container operation (`if not token` treats an empty header value like a missing
one). The claim as stated predicts the pull-then-recreate branch here. -/
theorem c3_admin_reload_counterexample :
    reloadContainersHandler [] (some []) = { status := 401, ops := [] } := by decide

/-- C3 amended: the handler rejects with 401 and performs no container operation iff
the `x-admin-token` header is absent, empty, or differs from the configured secret;
otherwise it first pulls a fresh image and then invokes `recreate_all_containers()`,
which (modelled from the spec) re-creates every known persistent container and
purges every one-time container. -/
theorem c3_admin_reload_amended (secret : Str) (header : Option Str)
    (known : List KnownContainer) :
    ((reloadContainersHandler secret header = { status := 401, ops := [] })
        ↔ (header = none ∨ header = some [] ∨ ∃ t, header = some t ∧ t ≠ secret))
    ∧ ((∃ t, header = some t ∧ t ≠ [] ∧ t = secret) →
        reloadContainersHandler secret header
          = { status := 200, ops := [.pullImage, .recreateAll] })
    ∧ (∀ c ∈ known,
        (c.persistent = true →
          RecreateAction.recreateFromMount c.hostname ∈ recreateAllContainers known
          ∧ RecreateAction.recheckpoint c.hostname ∈ recreateAllContainers known)
        ∧ (c.persistent = false →
          RecreateAction.purgeQuarantine c.hostname ∈ recreateAllContainers known)) := by
  refine ⟨?_, ?_, ?_⟩
  · constructor
    · intro h401
      match header with
      | none => exact .inl rfl
      | some t =>
        by_cases ht : t = [] ∨ t ≠ secret
        · rcases ht with ht | ht
          · exact .inr (.inl (by rw [ht]))
          · exact .inr (.inr ⟨t, rfl, ht⟩)
        · rw [reloadContainersHandler, if_neg ht] at h401
          exact absurd (congrArg ReloadResponse.status h401) (by decide)
    · rintro (rfl | rfl | ⟨t, rfl, ht⟩)
      · rfl
      · rfl
      · rw [reloadContainersHandler, if_pos (.inr ht)]
  · rintro ⟨t, rfl, htne, rfl⟩
    rw [reloadContainersHandler, if_neg (by simp [htne])]
  · intro c hc
    constructor
    · intro hp
      constructor
      · exact List.mem_append_left _
          (List.mem_flatMap.mpr ⟨c, hc, by rw [if_pos hp]; exact List.mem_cons_self _ _⟩)
      · exact List.mem_append_left _
          (List.mem_flatMap.mpr ⟨c, hc,
            by rw [if_pos hp]; exact List.mem_cons_of_mem _ (List.mem_cons_self _ _)⟩)
    · intro hp
      exact List.mem_append_left _
        (List.mem_flatMap.mpr ⟨c, hc,
          by rw [if_neg (by simp [hp])]; exact List.mem_cons_self _ _⟩)

/-- Witness for the amended C3 at a concrete secret, header and container set. -/
theorem c3_admin_reload_amended_witness :
    reloadContainersHandler ("tok1".toList) (some ("tok1".toList))
      = { status := 200, ops := [.pullImage, .recreateAll] } :=
  (c3_admin_reload_amended ("tok1".toList) (some ("tok1".toList))
    [⟨"h1".toList, true⟩]).2.1 ⟨"tok1".toList, rfl, by decide, rfl⟩

/-- C1 (code bug, evaluated at the failing input): when an operation inside a nested
session raises, the nested scope does not re-raise and releases no lock — but the
captured exception is never surfaced at the outermost scope either: the outer
session raises nothing, because each invocation keeps its own local `exceptions`
list and the nested `finally` returns after only logging. Moreover a session only
ever re-raises exactly what escaped its own body, so the ExceptionGroup branch is
unreachable, contradicting the code's own comment ("collect all exceptions in
nested session ... and raise them together in the finally block") and the spec. -/
theorem c1_nested_exception_swallowed :
    ((nestedFailureScenario (.plain ("boom".toList))).1.raised = none
      ∧ (nestedFailureScenario (.plain ("boom".toList))).1.released = []
      ∧ (nestedFailureScenario (.plain ("boom".toList))).2.raised = none)
    ∧ (∀ nested lock bodyExc,
        (engineClientSession nested lock bodyExc).raised = none
        ∨ (engineClientSession nested lock bodyExc).raised = bodyExc) := by
  refine ⟨⟨rfl, rfl, rfl⟩, ?_⟩
  intro nested lock bodyExc
  cases nested <;> cases bodyExc <;> simp [engineClientSession]

/-! ## C10: mount-directory resolution is effectful -/

theorem lookup_eq_none_of_no_key {α β : Type} [BEq α] [LawfulBEq α]
    (l : List (α × β)) (a : α) (h : ∀ b, (a, b) ∈ l → False) :
    l.lookup a = none := by
  induction l with
  | nil => rfl
  | cons kv t ih =>
    obtain ⟨k, v⟩ := kv
    rw [List.lookup]
    have hak : (a == k) = false := by
      by_cases hk : a = k
      · subst hk
        exact absurd (List.mem_cons_self (a, v) t) (h v)
      · simp [hk]
    rw [hak]
    exact ih (fun b hb => h b (List.mem_cons_of_mem _ hb))

/-- C10: resolving the mount directory for hostname `h` creates
`{mount_root}/{h}` when it is absent; consequently `read_metadata(h)` — though it
returns `none` because no `metadata.json` exists — is not read-only: it leaves a
newly created empty mount directory behind, while files and all other directories
are unchanged. -/
theorem c10_read_metadata_creates_mount_dir (fs : FSState) (h : Str)
    (hroot : containerMountParentDir ∈ fs.dirs)
    (hdata : ["DATA_DIR".toList] ∈ fs.dirs)
    (habsent : containerMountParentDir ++ [h] ∉ fs.dirs)
    (hnofiles : ∀ q v, (q, v) ∈ fs.files → ¬ containerMountParentDir ++ [h] <+: q) :
    (mountDirForHostname fs h).1.dirs = fs.dirs ++ [containerMountParentDir ++ [h]]
    ∧ (mountDirForHostname fs h).2 = containerMountParentDir ++ [h]
    ∧ (readMetadata fs h).2 = .ok none
    ∧ (readMetadata fs h).1.files = fs.files
    ∧ (readMetadata fs h).1.dirs = fs.dirs ++ [containerMountParentDir ++ [h]] := by
  have hlook : fs.files.lookup (containerMountParentDir ++ [h]) = none :=
    lookup_eq_none_of_no_key _ _
      (fun v hv => hnofiles _ v hv (List.prefix_refl _))
  have hex : pathExists fs (containerMountParentDir ++ [h]) = false := by
    rw [pathExists, hlook]
    simp [habsent]
  have hfilter :
      (containerMountParentDir ++ [h]).inits.filter (mkdirKeep fs)
        = [containerMountParentDir ++ [h]] := by
    have hin : (containerMountParentDir ++ [h]).inits
        = [[], ["DATA_DIR".toList], containerMountParentDir,
            containerMountParentDir ++ [h]] := rfl
    have c0 : ¬ (mkdirKeep fs ([] : FPath) = true) := by
      simp [mkdirKeep]
    have c1 : ¬ (mkdirKeep fs (["DATA_DIR".toList] : FPath) = true) := by
      simp only [mkdirKeep, decide_eq_true_eq, ne_eq]
      rintro ⟨-, hq⟩
      exact hq hdata
    have c2 : ¬ (mkdirKeep fs containerMountParentDir = true) := by
      simp only [mkdirKeep, decide_eq_true_eq, ne_eq]
      rintro ⟨-, hq⟩
      exact hq hroot
    have c3 : mkdirKeep fs (containerMountParentDir ++ [h]) = true := by
      simp only [mkdirKeep, decide_eq_true_eq, ne_eq]
      exact ⟨by simp [containerMountParentDir], habsent⟩
    rw [hin, List.filter_cons_of_neg c0, List.filter_cons_of_neg c1,
      List.filter_cons_of_neg c2, List.filter_cons_of_pos c3, List.filter_nil]
  have hmk : mountDirForHostname fs h
      = (⟨fs.dirs ++ [containerMountParentDir ++ [h]], fs.files⟩,
          containerMountParentDir ++ [h]) := by
    rw [mountDirForHostname]
    rw [if_neg (by rw [hex]; exact Bool.false_ne_true)]
    rw [mkdirParents, hfilter]
  have hlook2 : fs.files.lookup (containerMountParentDir ++ [h] ++ [metadataJsonLit])
      = none :=
    lookup_eq_none_of_no_key _ _
      (fun v hv => hnofiles _ v hv (List.prefix_append _ _))
  have hread : readMetadata fs h
      = (⟨fs.dirs ++ [containerMountParentDir ++ [h]], fs.files⟩, .ok none) := by
    simp only [readMetadata, metadataFileForHostname, hmk, hlook2]
  exact ⟨by rw [hmk], by rw [hmk], by rw [hread], by rw [hread], by rw [hread]⟩

/-- Witness for C10 at a concrete filesystem with no mount directory for `h7`. -/
theorem c10_read_metadata_creates_mount_dir_witness :
    (readMetadata ⟨[["DATA_DIR".toList], containerMountParentDir], []⟩
        ("h7".toList)).2 = .ok none
    ∧ (readMetadata ⟨[["DATA_DIR".toList], containerMountParentDir], []⟩
        ("h7".toList)).1.dirs
      = [["DATA_DIR".toList], containerMountParentDir]
          ++ [containerMountParentDir ++ ["h7".toList]] :=
  ⟨(c10_read_metadata_creates_mount_dir
      ⟨[["DATA_DIR".toList], containerMountParentDir], []⟩ ("h7".toList)
      (by decide) (by decide) (by decide) (by simp)).2.2.1,
   (c10_read_metadata_creates_mount_dir
      ⟨[["DATA_DIR".toList], containerMountParentDir], []⟩ ("h7".toList)
      (by decide) (by decide) (by decide) (by simp)).2.2.2.2⟩

/-! ## C4: `ContainerService.assign_container` -/

theorem mountDirForHostname_snd (fs : FSState) (h : Str) :
    (mountDirForHostname fs h).2 = containerMountParentDir ++ [h] := by
  simp only [mountDirForHostname]
  split <;> rfl

theorem metadataFileForHostname_snd (fs : FSState) (h : Str) :
    (metadataFileForHostname fs h).2
      = containerMountParentDir ++ [h] ++ [metadataJsonLit] := by
  simp only [metadataFileForHostname, mountDirForHostname_snd]

theorem find?_map_rename (cs : List ContainerM) (cid nm : Str) :
    (cs.map (fun c => if c.id = cid then { c with name := nm } else c)).find?
        (fun c => decide (c.id = cid))
      = (cs.find? (fun c => decide (c.id = cid))).map
          (fun c => { c with name := nm }) := by
  induction cs with
  | nil => rfl
  | cons c t ih =>
    by_cases hc : c.id = cid
    · simp [List.find?_cons, hc]
    · simp [List.find?_cons, hc, ih]

/-- Refreshing by id after a rename sees exactly the renamed record. -/
theorem getById_renameById (s : EngineState) (cid nm : Str) :
    getById (renameById s cid nm) cid
      = (getById s cid).map (fun c => { c with name := nm }) :=
  find?_map_rename s.containers cid nm

theorem getById_of_mem (s : EngineState) (c : ContainerM)
    (hmem : c ∈ s.containers) (hnd : (s.containers.map (fun x => x.id)).Nodup) :
    getById s c.id = some c := by
  obtain ⟨cs⟩ := s
  simp only [getById]
  induction cs with
  | nil => cases hmem
  | cons x t ih =>
    simp only [List.map_cons, List.nodup_cons] at hnd
    rcases List.mem_cons.mp hmem with rfl | hmem2
    · simp [List.find?_cons]
    · have hx : x.id ≠ c.id := by
        intro he
        exact hnd.1 (he ▸ List.mem_map_of_mem (fun y => y.id) hmem2)
      simp [List.find?_cons, hx]
      exact ih hmem2 hnd.2

theorem mem_standbyPool_mem_containers (s : EngineState) (now : Nat)
    (c : ContainerM) (hc : c ∈ standbyPool s now) : c ∈ s.containers := by
  simp only [standbyPool, getContainersSvc, listByPartial, if_pos] at hc
  exact List.mem_of_mem_filter (List.mem_of_mem_filter hc)

/-- C4: `assign_container(u)` picks a random member of the ready UNASSIGNED pool,
renames it to `{u.user_id}-{hostname}`, re-inspects it to refresh its attributes,
writes `metadata.json` recording `u` in the container's mount directory, and
returns the refreshed container; when the standby pool is empty it fails with the
no-standby error and neither renames nor writes metadata (engine and filesystem are
untouched). -/
theorem c4_assign_container (s : EngineState) (fs : FSState) (now : Nat)
    (user : AuthUserM) (idx : Nat)
    (hnd : (s.containers.map (fun c => c.id)).Nodup) :
    (standbyPool s now = [] →
      assignContainerSvc s fs now user idx
        = { eng := s, fs := fs,
            result := .error ("No unassigned containers found".toList) })
    ∧ (∀ c, (standbyPool s now)[idx]? = some c →
        assignContainerSvc s fs now user idx
          = { eng := renameById s c.id (assignedNameFor user c.hostname),
              fs := writeMetadataSvc fs
                { c with name := assignedNameFor user c.hostname } user,
              result := .ok { c with name := assignedNameFor user c.hostname } }
        ∧ c ∈ standbyPool s now
        ∧ (writeMetadataSvc fs
              { c with name := assignedNameFor user c.hostname } user).files.lookup
            (containerMountParentDir ++ [c.hostname] ++ [metadataJsonLit])
          = some (.metadataJson user)) := by
  constructor
  · intro hpool
    rw [assignContainerSvc, getRandomUnassigned, hpool]
  · intro c hc
    have hcmem : c ∈ standbyPool s now := List.getElem?_mem hc
    have hcmem2 : c ∈ s.containers := mem_standbyPool_mem_containers s now c hcmem
    have hne : standbyPool s now ≠ [] := by
      intro hnil
      rw [hnil] at hc
      simp at hc
    obtain ⟨c0, rest, hpool⟩ := List.exists_cons_of_ne_nil hne
    have hrand : getRandomUnassigned s now idx = .ok c := by
      rw [getRandomUnassigned]
      conv_lhs => rw [hpool]
      rw [hpool] at hc
      have hgd : (c0 :: rest).getD idx c0 = c := by
        rw [List.getD_eq_getElem?_getD, hc]
        rfl
      exact congrArg Except.ok hgd
    have hby : getById (renameById s c.id (assignedNameFor user c.hostname)) c.id
        = some { c with name := assignedNameFor user c.hostname } := by
      rw [getById_renameById, getById_of_mem s c hcmem2 hnd]
      rfl
    refine ⟨?_, hcmem, ?_⟩
    · rw [assignContainerSvc, hrand]
      simp only [hby]
    · simp only [writeMetadataSvc, metadataFileForHostname_snd]
      simp [List.lookup]

/-- Witness for C4 at a concrete engine with one ready standby: the container is
renamed, refreshed, and its metadata records the user. -/
theorem c4_assign_container_witness :
    assignContainerSvc
        ⟨[{ id := "cid1".toList, name := unassignedNameFor ("abc234".toList),
            hostname := "abc234".toList, running := true, startedAt := 0 }]⟩
        ⟨[["DATA_DIR".toList], containerMountParentDir], []⟩ 100
        ⟨"u1".toList, "github".toList⟩ 0
      = { eng := renameById
            ⟨[{ id := "cid1".toList, name := unassignedNameFor ("abc234".toList),
                hostname := "abc234".toList, running := true, startedAt := 0 }]⟩
            ("cid1".toList)
            (assignedNameFor ⟨"u1".toList, "github".toList⟩ ("abc234".toList)),
          fs := writeMetadataSvc ⟨[["DATA_DIR".toList], containerMountParentDir], []⟩
            { id := "cid1".toList,
              name := assignedNameFor ⟨"u1".toList, "github".toList⟩ ("abc234".toList),
              hostname := "abc234".toList, running := true, startedAt := 0 }
            ⟨"u1".toList, "github".toList⟩,
          result := .ok
            { id := "cid1".toList,
              name := assignedNameFor ⟨"u1".toList, "github".toList⟩ ("abc234".toList),
              hostname := "abc234".toList, running := true, startedAt := 0 } } := by
  have h := (c4_assign_container
    ⟨[{ id := "cid1".toList, name := unassignedNameFor ("abc234".toList),
        hostname := "abc234".toList, running := true, startedAt := 0 }]⟩
    ⟨[["DATA_DIR".toList], containerMountParentDir], []⟩ 100
    ⟨"u1".toList, "github".toList⟩ 0 (by decide)).2
    { id := "cid1".toList, name := unassignedNameFor ("abc234".toList),
      hostname := "abc234".toList, running := true, startedAt := 0 } (by decide)
  exact h.1

/-! ## C2: purging a container and its mount directory -/

theorem pathExists_of_mem_dirs (fs : FSState) (p : FPath) (h : p ∈ fs.dirs) :
    pathExists fs p = true := by
  simp [pathExists, h]

/-- C2 counterexample: `ContainerManager._purge_container` deletes the mount
directory outright (`shutil.rmtree`) instead of moving it: at a concrete state
with one assigned container `u1.github-abc`, purging `abc` removes the container
and its mount directory, and no directory `__cleanup/abc` appears — the metadata
file is destroyed rather than preserved. -/
theorem c2_purge_container_counterexample :
    (purgeContainerMgr
        ⟨[{ id := "cid1".toList, name := "u1.github-abc".toList,
            hostname := "abc".toList, running := true, startedAt := 0 }]⟩
        ⟨[containerMountParentDir, containerMountParentDir ++ ["abc".toList]],
          [(containerMountParentDir ++ ["abc".toList] ++ [metadataJsonLit],
            .rawData ("m".toList))]⟩
        ("abc".toList)).2.2 = .ok ()
    ∧ (purgeContainerMgr
        ⟨[{ id := "cid1".toList, name := "u1.github-abc".toList,
            hostname := "abc".toList, running := true, startedAt := 0 }]⟩
        ⟨[containerMountParentDir, containerMountParentDir ++ ["abc".toList]],
          [(containerMountParentDir ++ ["abc".toList] ++ [metadataJsonLit],
            .rawData ("m".toList))]⟩
        ("abc".toList)).1.containers = []
    ∧ (containerMountParentDir ++ ["abc".toList])
        ∉ (purgeContainerMgr
        ⟨[{ id := "cid1".toList, name := "u1.github-abc".toList,
            hostname := "abc".toList, running := true, startedAt := 0 }]⟩
        ⟨[containerMountParentDir, containerMountParentDir ++ ["abc".toList]],
          [(containerMountParentDir ++ ["abc".toList] ++ [metadataJsonLit],
            .rawData ("m".toList))]⟩
        ("abc".toList)).2.1.dirs
    ∧ (cleanupMountParentDir ++ ["abc".toList])
        ∉ (purgeContainerMgr
        ⟨[{ id := "cid1".toList, name := "u1.github-abc".toList,
            hostname := "abc".toList, running := true, startedAt := 0 }]⟩
        ⟨[containerMountParentDir, containerMountParentDir ++ ["abc".toList]],
          [(containerMountParentDir ++ ["abc".toList] ++ [metadataJsonLit],
            .rawData ("m".toList))]⟩
        ("abc".toList)).2.1.dirs
    ∧ (purgeContainerMgr
        ⟨[{ id := "cid1".toList, name := "u1.github-abc".toList,
            hostname := "abc".toList, running := true, startedAt := 0 }]⟩
        ⟨[containerMountParentDir, containerMountParentDir ++ ["abc".toList]],
          [(containerMountParentDir ++ ["abc".toList] ++ [metadataJsonLit],
            .rawData ("m".toList))]⟩
        ("abc".toList)).2.1.files = [] := by
  decide

/-- C2 amended, for the purge path in live use (`ContainerService.purge_container`):
purging deletes the container from the engine and moves — does not delete — its
mount directory to `{mount_root}/__cleanup/{hostname}`: afterwards the original
mount directory no longer exists, the quarantine directory with the same hostname
exists, and every file below the mount directory is preserved below the quarantine
directory. -/
theorem c2_purge_moves_mount_to_quarantine (s : EngineState) (fs : FSState)
    (c : ContainerM)
    (hmnt : containerMountParentDir ++ [c.hostname] ∈ fs.dirs)
    (hdst2 : ∀ kv ∈ fs.files, ¬ cleanupMountParentDir ++ [c.hostname] <+: kv.1) :
    (∀ x ∈ (purgeContainerSvc s fs c).1.containers, x.id ≠ c.id)
    ∧ containerMountParentDir ++ [c.hostname] ∉ (purgeContainerSvc s fs c).2.dirs
    ∧ cleanupMountParentDir ++ [c.hostname] ∈ (purgeContainerSvc s fs c).2.dirs
    ∧ ∀ rel v, ((containerMountParentDir ++ [c.hostname] ++ rel, v) ∈ fs.files
        ↔ (cleanupMountParentDir ++ [c.hostname] ++ rel, v)
            ∈ (purgeContainerSvc s fs c).2.files) := by
  have hpmem : (containerMountParentDir ++ [c.hostname])
      ∈ (if pathExists fs cleanupMountParentDir = true then fs
          else mkdirParents fs cleanupMountParentDir).dirs := by
    split
    · exact hmnt
    · exact List.mem_append_left _ hmnt
  have hfiles2 : (if pathExists fs cleanupMountParentDir = true then fs
      else mkdirParents fs cleanupMountParentDir).files = fs.files := by
    split <;> rfl
  have hex1 : pathExists
      (if pathExists fs cleanupMountParentDir = true then fs
        else mkdirParents fs cleanupMountParentDir)
      (containerMountParentDir ++ [c.hostname]) = true :=
    pathExists_of_mem_dirs _ _ hpmem
  have hkey : purgeContainerSvc s fs c
      = (deleteById s c.id,
          movePath (if pathExists fs cleanupMountParentDir = true then fs
              else mkdirParents fs cleanupMountParentDir)
            (containerMountParentDir ++ [c.hostname])
            (cleanupMountParentDir ++ [c.hostname])) := by
    simp only [purgeContainerSvc, mountDirForHostname, hex1, if_true]
  rw [hkey]
  refine ⟨?_, ?_, ?_, ?_⟩
  · intro x hx
    simp only [deleteById, List.mem_filter, decide_eq_true_eq] at hx
    exact hx.2
  · intro hmem
    simp only [movePath, List.mem_map] at hmem
    obtain ⟨q, hq, hqe⟩ := hmem
    by_cases hpre : containerMountParentDir ++ [c.hostname] <+: q
    · rw [reroot, if_pos hpre] at hqe
      have hl := congrArg List.length hqe
      simp only [List.length_append, cleanupMountParentDir, containerMountParentDir,
        List.length_cons, List.length_nil] at hl
      omega
    · rw [reroot, if_neg hpre] at hqe
      exact hpre (hqe ▸ List.prefix_refl _)
  · have : reroot (containerMountParentDir ++ [c.hostname])
        (cleanupMountParentDir ++ [c.hostname])
        (containerMountParentDir ++ [c.hostname])
      = cleanupMountParentDir ++ [c.hostname] := by
      rw [reroot, if_pos (List.prefix_refl _)]
      simp [List.drop_length]
    simpa [movePath, this] using List.mem_map_of_mem
      (reroot (containerMountParentDir ++ [c.hostname])
        (cleanupMountParentDir ++ [c.hostname])) hpmem
  · intro rel v
    constructor
    · intro hmem
      have : (reroot (containerMountParentDir ++ [c.hostname])
            (cleanupMountParentDir ++ [c.hostname])
            (containerMountParentDir ++ [c.hostname] ++ rel), v)
          ∈ (movePath (if pathExists fs cleanupMountParentDir = true then fs
              else mkdirParents fs cleanupMountParentDir)
            (containerMountParentDir ++ [c.hostname])
            (cleanupMountParentDir ++ [c.hostname])).files := by
        simp only [movePath, List.mem_map]
        exact ⟨(containerMountParentDir ++ [c.hostname] ++ rel, v),
          hfiles2 ▸ hmem, rfl⟩
      rw [reroot, if_pos (List.prefix_append _ _)] at this
      rwa [List.drop_left] at this
    · intro hmem
      simp only [movePath, List.mem_map, hfiles2] at hmem
      obtain ⟨⟨q, v2⟩, hq, hqe⟩ := hmem
      rw [Prod.mk.injEq] at hqe
      obtain ⟨hqe1, rfl⟩ := hqe
      by_cases hpre : containerMountParentDir ++ [c.hostname] <+: q
      · obtain ⟨q2, rfl⟩ := hpre
        rw [reroot, if_pos (List.prefix_append _ _), List.drop_left] at hqe1
        have : q2 = rel := List.append_cancel_left hqe1
        subst this
        exact hq
      · rw [reroot, if_neg hpre] at hqe1
        subst hqe1
        exact absurd (List.prefix_append _ _) (hdst2 _ hq)

/-- Witness for the amended C2 at a concrete state: the mount directory of `abc`
moves under `__cleanup`. -/
theorem c2_purge_moves_mount_to_quarantine_witness :
    (containerMountParentDir ++ ["abc".toList])
        ∉ (purgeContainerSvc
            ⟨[{ id := "cid1".toList, name := "u1.github-abc".toList,
                hostname := "abc".toList, running := true, startedAt := 0 }]⟩
            ⟨[containerMountParentDir, containerMountParentDir ++ ["abc".toList]],
              [(containerMountParentDir ++ ["abc".toList] ++ [metadataJsonLit],
                .rawData ("m".toList))]⟩
            { id := "cid1".toList, name := "u1.github-abc".toList,
              hostname := "abc".toList, running := true, startedAt := 0 }).2.dirs
    ∧ (cleanupMountParentDir ++ ["abc".toList])
        ∈ (purgeContainerSvc
            ⟨[{ id := "cid1".toList, name := "u1.github-abc".toList,
                hostname := "abc".toList, running := true, startedAt := 0 }]⟩
            ⟨[containerMountParentDir, containerMountParentDir ++ ["abc".toList]],
              [(containerMountParentDir ++ ["abc".toList] ++ [metadataJsonLit],
                .rawData ("m".toList))]⟩
            { id := "cid1".toList, name := "u1.github-abc".toList,
              hostname := "abc".toList, running := true, startedAt := 0 }).2.dirs :=
  ⟨(c2_purge_moves_mount_to_quarantine _ _ _ (by decide) (by decide)).2.1,
   (c2_purge_moves_mount_to_quarantine _ _ _ (by decide) (by decide)).2.2.1⟩

/-! ## C9: `assign` then `get_user_container` round-trip (`ContainerManager`) -/

theorem getRandomUnassigned_eq (s : EngineState) (now idx : Nat) (c : ContainerM)
    (hc : (standbyPool s now)[idx]? = some c) :
    getRandomUnassigned s now idx = .ok c := by
  have hne : standbyPool s now ≠ [] := by
    intro hnil
    rw [hnil] at hc
    simp at hc
  obtain ⟨c0, rest, hpool⟩ := List.exists_cons_of_ne_nil hne
  rw [getRandomUnassigned]
  conv_lhs => rw [hpool]
  rw [hpool] at hc
  have hgd : (c0 :: rest).getD idx c0 = c := by
    rw [List.getD_eq_getElem?_getD, hc]
    rfl
  exact congrArg Except.ok hgd

/-- A user id always contains a dot, so it cannot occur inside an
`UNASSIGNED-{hostname}` name when the hostname is dot-free. -/
theorem userId_not_infix_unassigned (u : AuthUserM) (h : Str) (hdot : '.' ∉ h) :
    ¬ u.userId <:+: unassignedNameFor h := by
  intro hinf
  have hdot2 : '.' ∈ u.userId := by
    rw [AuthUserM.userId]
    exact List.mem_append_right _ (List.mem_cons_self _ _)
  have hmem := hinf.subset hdot2
  rw [unassignedNameFor] at hmem
  rcases List.mem_append.mp hmem with hm | hm
  · exact absurd hm (by decide)
  · rcases List.mem_cons.mp hm with he | hm2
    · exact absurd he (by decide)
    · exact hdot hm2

theorem filter_map_rename_nil (t : List ContainerM) (cid nm : Str) (P : Str → Bool)
    (h : ∀ y ∈ t, y.id ≠ cid ∧ P y.name = false) :
    (t.map (fun x => if x.id = cid then { x with name := nm } else x)).filter
      (fun x => P x.name) = [] := by
  induction t with
  | nil => rfl
  | cons y t2 ih =>
    have hy := h y (List.mem_cons_self _ _)
    simp only [List.map_cons, List.filter_cons, if_neg hy.1, hy.2]
    exact ih (fun z hz => h z (List.mem_cons_of_mem _ hz))

/-- Renaming the unique container with id `c.id` to a name satisfying `P`, in a
state where no name satisfies `P`, makes the renamed record the single `P` match. -/
theorem filter_rename_singleton (cs : List ContainerM) (c : ContainerM) (nm : Str)
    (P : Str → Bool) (hmem : c ∈ cs) (hnd : (cs.map (fun x => x.id)).Nodup)
    (hothers : ∀ x ∈ cs, P x.name = false) (hP : P nm = true) :
    (cs.map (fun x => if x.id = c.id then { x with name := nm } else x)).filter
        (fun x => P x.name)
      = [{ c with name := nm }] := by
  induction cs with
  | nil => cases hmem
  | cons x t ih =>
    simp only [List.map_cons, List.nodup_cons] at hnd
    rcases List.mem_cons.mp hmem with rfl | hmem2
    · rw [List.map_cons, if_pos rfl, List.filter_cons_of_pos (by exact hP)]
      rw [filter_map_rename_nil t c.id nm P (fun y hy =>
        ⟨fun he => hnd.1 (he ▸ List.mem_map_of_mem (fun z => z.id) hy),
          hothers y (List.mem_cons_of_mem _ hy)⟩)]
    · have hx : x.id ≠ c.id := by
        intro he
        exact hnd.1 (he ▸ List.mem_map_of_mem (fun z => z.id) hmem2)
      simp only [List.map_cons, if_neg hx, List.filter_cons,
        hothers x (List.mem_cons_self _ _)]
      exact ih hmem2 hnd.2 (fun z hz => hothers z (List.mem_cons_of_mem _ hz))

/-- Under fresh hostnames the sequential backfill only appends new UNASSIGNED
containers: it succeeds, and the set of containers whose name contains `uid` is
unchanged. -/
theorem backfillCreate_preserves (uid : Str) (cA : ContainerM) :
    ∀ (fresh : List (Str × Str)) (s : EngineState) (fs : FSState) (now : Nat),
    s.containers.filter (fun x => decide (uid <:+: x.name)) = [cA] →
    (∀ p ∈ fresh, ∀ x ∈ s.containers, ¬ unassignedNameFor p.1 <:+: x.name) →
    fresh.Pairwise (fun a b => ¬ unassignedNameFor b.1 <:+: unassignedNameFor a.1) →
    (∀ p ∈ fresh, ¬ uid <:+: unassignedNameFor p.1) →
    (backfillCreate s fs now fresh).2.2 = .ok ()
    ∧ (backfillCreate s fs now fresh).1.containers.filter
        (fun x => decide (uid <:+: x.name)) = [cA] := by
  intro fresh
  induction fresh with
  | nil =>
    intro s fs now h1 _ _ _
    exact ⟨rfl, h1⟩
  | cons pq rest ih =>
    intro s fs now h1 hstate hpair hf1
    obtain ⟨h, fid⟩ := pq
    have hfound : listByPartial s (unassignedNameFor h) = [] := by
      rw [listByPartial, List.filter_eq_nil]
      intro x hx
      simpa using hstate (h, fid) (List.mem_cons_self _ _) x hx
    have hcreate : createStandbyMgr s fs now h fid
        = (EngineState.mk (s.containers
              ++ [ContainerM.mk fid (unassignedNameFor h) h true now]),
            ((mountDirForHostname fs h).1,
              Except.ok (ContainerM.mk fid (unassignedNameFor h) h true now))) := by
      simp only [createStandbyMgr, hfound]
      rfl
    have hstep : backfillCreate s fs now ((h, fid) :: rest)
        = backfillCreate
            (EngineState.mk (s.containers
              ++ [ContainerM.mk fid (unassignedNameFor h) h true now]))
            (mountDirForHostname fs h).1 now rest := by
      simp only [backfillCreate, hcreate]
    rw [hstep]
    have hpair2 := List.pairwise_cons.mp hpair
    refine ih _ _ _ ?_ ?_ hpair2.2 ?_
    · rw [List.filter_append, h1]
      have hni : ¬ uid <:+: unassignedNameFor h :=
        hf1 (h, fid) (List.mem_cons_self _ _)
      simp [hni]
    · intro p hp x hx
      rcases List.mem_append.mp hx with hx1 | hx2
      · exact hstate p (List.mem_cons_of_mem _ hp) x hx1
      · have hx3 : x = ContainerM.mk fid (unassignedNameFor h) h true now := by
          simpa using hx2
        rw [hx3]
        exact hpair2.1 p hp
    · intro p hp
      exact hf1 p (List.mem_cons_of_mem _ hp)

/-- C9: starting from an engine state where no container name contains
`u.user_id` and a ready standby exists, assigning through `get_user_container(u)`
and then calling `get_user_container(u)` again returns the same container — same
hostname and same id — without assigning a new one (engine and filesystem are
unchanged by the second call). -/
theorem c9_assign_then_get_user_container_same (s : EngineState) (fs : FSState)
    (now : Nat) (user : AuthUserM) (idx minPool : Nat) (fresh : List (Str × Str))
    (hnone : ∀ x ∈ s.containers, ¬ user.userId <:+: x.name)
    (hnd : (s.containers.map (fun x => x.id)).Nodup)
    (c : ContainerM) (hc : (standbyPool s now)[idx]? = some c)
    (hstateS : ∀ p ∈ fresh, ∀ x ∈ s.containers,
      ¬ unassignedNameFor p.1 <:+: x.name)
    (hstateA : ∀ p ∈ fresh,
      ¬ unassignedNameFor p.1 <:+: assignedNameFor user c.hostname)
    (hpair : fresh.Pairwise
      (fun a b => ¬ unassignedNameFor b.1 <:+: unassignedNameFor a.1))
    (hdotfree : ∀ p ∈ fresh, '.' ∉ p.1) :
    ∃ s2 fs2 cA,
      getUserContainer s fs now user idx minPool fresh
        = { eng := s2, fs := fs2, result := .ok c }
      ∧ getUserContainer s2 fs2 now user idx minPool fresh
        = { eng := s2, fs := fs2, result := .ok cA }
      ∧ cA.id = c.id ∧ cA.hostname = c.hostname := by
  have hcmem : c ∈ standbyPool s now := List.getElem?_mem hc
  have hcmem2 : c ∈ s.containers := mem_standbyPool_mem_containers s now c hcmem
  -- the first lookup finds nothing
  have hfilnil : listByPartial s user.userId = [] := by
    rw [listByPartial, List.filter_eq_nil]
    intro x hx
    simpa using hnone x hx
  have hfind1 : mgrGetContainer s user.userId = .ok none := by
    rw [mgrGetContainer, hfilnil]
    rfl
  -- the assignment
  have hrand : getRandomUnassigned s now idx = .ok c := getRandomUnassigned_eq s now idx c hc
  have hassign : assignContainerMgr s fs now user idx
      = { eng := renameById s c.id (assignedNameFor user c.hostname),
          fs := writeMetadataSvc fs c user, result := .ok c } := by
    rw [assignContainerMgr, hrand]
  -- after the rename, exactly the renamed record matches the user id
  have hinfA : decide (user.userId <:+: assignedNameFor user c.hostname) = true := by
    simp only [decide_eq_true_eq, assignedNameFor]
    exact (List.prefix_append _ _).isInfix
  have hfil1 : (renameById s c.id (assignedNameFor user c.hostname)).containers.filter
      (fun x => decide (user.userId <:+: x.name))
      = [{ c with name := assignedNameFor user c.hostname }] :=
    filter_rename_singleton s.containers c (assignedNameFor user c.hostname)
      (fun nm => decide (user.userId <:+: nm)) hcmem2 hnd
      (fun x hx => by simpa using hnone x hx) hinfA
  -- the backfill preserves that property and succeeds
  have htake1 : ∀ p ∈ fresh.take (minPool -
      (getContainersSvc (renameById s c.id (assignedNameFor user c.hostname)) now
        (some unassignedLit) false).length), p ∈ fresh :=
    fun p hp => List.take_subset _ _ hp
  have hback := backfillCreate_preserves user.userId
    { c with name := assignedNameFor user c.hostname }
    (fresh.take (minPool -
      (getContainersSvc (renameById s c.id (assignedNameFor user c.hostname)) now
        (some unassignedLit) false).length))
    (renameById s c.id (assignedNameFor user c.hostname))
    (writeMetadataSvc fs c user) now hfil1
    (by
      intro p hp x hx
      rcases List.mem_map.mp hx with ⟨y, hy, hye⟩
      by_cases hid : y.id = c.id
      · rw [if_pos hid] at hye
        rw [← hye]
        exact hstateA p (htake1 p hp)
      · rw [if_neg hid] at hye
        rw [← hye]
        exact hstateS p (htake1 p hp) y hy)
    (hpair.sublist (List.take_sublist _ _))
    (by
      intro p hp
      exact userId_not_infix_unassigned user p.1 (hdotfree p (htake1 p hp)))
  -- name the backfill output
  have hbeq : backfillContainerPool
      (renameById s c.id (assignedNameFor user c.hostname))
      (writeMetadataSvc fs c user) now minPool fresh
      = ((backfillContainerPool (renameById s c.id (assignedNameFor user c.hostname))
            (writeMetadataSvc fs c user) now minPool fresh).1,
          (backfillContainerPool (renameById s c.id (assignedNameFor user c.hostname))
            (writeMetadataSvc fs c user) now minPool fresh).2.1,
          .ok ()) := by
    have h22 : (backfillContainerPool
        (renameById s c.id (assignedNameFor user c.hostname))
        (writeMetadataSvc fs c user) now minPool fresh).2.2 = .ok () := hback.1
    rw [← h22]
  refine ⟨(backfillContainerPool (renameById s c.id (assignedNameFor user c.hostname))
      (writeMetadataSvc fs c user) now minPool fresh).1,
    (backfillContainerPool (renameById s c.id (assignedNameFor user c.hostname))
      (writeMetadataSvc fs c user) now minPool fresh).2.1,
    { c with name := assignedNameFor user c.hostname }, ?_, ?_, rfl, rfl⟩
  · rw [getUserContainer, hfind1]
    simp only [hassign]
    conv_lhs => rw [hbeq]
  · have hfil2 : listByPartial (backfillContainerPool
        (renameById s c.id (assignedNameFor user c.hostname))
        (writeMetadataSvc fs c user) now minPool fresh).1 user.userId
        = [{ c with name := assignedNameFor user c.hostname }] := hback.2
    have hfind2 : mgrGetContainer (backfillContainerPool
        (renameById s c.id (assignedNameFor user c.hostname))
        (writeMetadataSvc fs c user) now minPool fresh).1 user.userId
        = .ok (some { c with name := assignedNameFor user c.hostname }) := by
      rw [mgrGetContainer, hfil2]
      rfl
    rw [getUserContainer, hfind2]

/-- Witness for C9 at a concrete state with one ready standby `UNASSIGNED-abc`,
user `u1.github`, and one fresh backfill hostname `zzz`. -/
theorem c9_assign_then_get_user_container_same_witness :
    ∃ s2 fs2 cA,
      getUserContainer
          ⟨[ContainerM.mk ("i1".toList) (unassignedNameFor ("abc".toList))
              ("abc".toList) true 0]⟩
          ⟨[["DATA_DIR".toList], containerMountParentDir], []⟩ 100
          ⟨"u1".toList, "github".toList⟩ 0 1 [("zzz".toList, "i2".toList)]
        = { eng := s2, fs := fs2,
            result := .ok (ContainerM.mk ("i1".toList)
              (unassignedNameFor ("abc".toList)) ("abc".toList) true 0) }
      ∧ getUserContainer s2 fs2 100 ⟨"u1".toList, "github".toList⟩ 0 1
          [("zzz".toList, "i2".toList)]
        = { eng := s2, fs := fs2, result := .ok cA }
      ∧ cA.id = (ContainerM.mk ("i1".toList) (unassignedNameFor ("abc".toList))
          ("abc".toList) true 0).id
      ∧ cA.hostname = (ContainerM.mk ("i1".toList)
          (unassignedNameFor ("abc".toList)) ("abc".toList) true 0).hostname :=
  c9_assign_then_get_user_container_same
    ⟨[ContainerM.mk ("i1".toList) (unassignedNameFor ("abc".toList))
        ("abc".toList) true 0]⟩
    ⟨[["DATA_DIR".toList], containerMountParentDir], []⟩ 100
    ⟨"u1".toList, "github".toList⟩ 0 1 [("zzz".toList, "i2".toList)]
    (by decide) (by decide)
    (ContainerM.mk ("i1".toList) (unassignedNameFor ("abc".toList))
      ("abc".toList) true 0)
    (by decide) (by decide) (by decide) (by simp) (by decide)

theorem dropWhile_head_false (P : Char → Bool) :
    ∀ (t : Str) (x : Char) (r : Str), t.dropWhile P = x :: r → P x = false := by
  intro t
  induction t with
  | nil => intro x r h; cases h
  | cons d t2 ih =>
    intro x r h
    rw [List.dropWhile_cons] at h
    by_cases hd : P d = true
    · rw [if_pos hd] at h
      exact ih x r h
    · rw [if_neg hd] at h
      cases h
      simpa using hd

/-- Inside a match candidate (`{` already consumed, `acc` the group so far), the
scanner takes the whole non-`}` run and closes at the first `}` when the group is
nonempty. -/
theorem scanPlaceholders_some_eq (t : Str) : ∀ acc : Str,
    scanPlaceholders t (some acc)
      = match t.dropWhile notRBrace with
        | _ :: rest =>
          if acc ++ t.takeWhile notRBrace = []
          then scanPlaceholders rest none
          else (acc ++ t.takeWhile notRBrace) :: scanPlaceholders rest none
        | [] => [] := by
  induction t with
  | nil => intro acc; rfl
  | cons d t2 ih =>
    intro acc
    by_cases hd : d = '}'
    · subst hd
      have hP : notRBrace '}' = false := by decide
      rw [List.dropWhile_cons, List.takeWhile_cons, if_neg (by simp [hP]),
        if_neg (by simp [hP])]
      show (if acc = [] then scanPlaceholders t2 none
            else acc :: scanPlaceholders t2 none)
          = if acc ++ [] = [] then scanPlaceholders t2 none
            else (acc ++ []) :: scanPlaceholders t2 none
      simp
    · have hP : notRBrace d = true := by simp [notRBrace, hd]
      have hlhs : scanPlaceholders (d :: t2) (some acc)
          = scanPlaceholders t2 (some (acc ++ [d])) := by
        simp [scanPlaceholders, hd]
      rw [hlhs, ih (acc ++ [d]), List.dropWhile_cons, List.takeWhile_cons,
        if_pos hP, if_pos hP]
      cases hdw : t2.dropWhile notRBrace with
      | nil => rfl
      | cons x rest => simp [List.append_assoc]

/-- A string the scanner finds no match in satisfies the `tame` invariant. -/
theorem tame_of_scan_nil :
    ∀ (n : Nat) (s : Str), s.length ≤ n → scanPlaceholders s none = [] →
      tame s = true := by
  intro n
  induction n with
  | zero =>
    intro s hs _
    match s with
    | [] => rfl
    | c :: t => simp at hs
  | succ n ih =>
    intro s hs hscan
    match s with
    | [] => rfl
    | c :: t =>
      by_cases hc : c = '{'
      · subst hc
        have hstep : scanPlaceholders ('{' :: t) none
            = scanPlaceholders t (some []) := by
          simp [scanPlaceholders]
        rw [hstep, scanPlaceholders_some_eq] at hscan
        cases hdw : t.dropWhile notRBrace with
        | nil =>
          have hnob : ∀ x ∈ t, notRBrace x = true :=
            List.dropWhile_eq_nil_iff.mp hdw
          have hnomem : '}' ∉ t := by
            intro hmem
            have := hnob _ hmem
            simp [notRBrace] at this
          match ht : t with
          | [] => rfl
          | d :: t2 =>
            have hnomem2 : '}' ∉ d :: t2 := hnomem
            have hd : d ≠ '}' := by
              intro he
              exact hnomem2 (by rw [he]; exact List.mem_cons_self _ _)
            have htm : tame ('{' :: d :: t2) = decide ('}' ∉ (d :: t2)) := by
              simp [tame, hd]
            rw [htm]
            simpa using hnomem2
        | cons x rest =>
          rw [hdw] at hscan
          have hx : x = '}' := by
            have := dropWhile_head_false notRBrace t x rest hdw
            simpa [notRBrace] using this
          subst hx
          by_cases hmid : t.takeWhile notRBrace = []
          · have hscan2 : scanPlaceholders rest none = [] := by
              simpa [hmid] using hscan
            -- t = '}' :: rest and the scan of rest is empty
            have ht : t = '}' :: rest := by
              conv_lhs => rw [← List.takeWhile_append_dropWhile notRBrace t]
              rw [hmid, hdw]
              rfl
            have hrest : tame rest = true := by
              refine ih rest ?_ hscan2
              have hlen : t.length ≤ n := by
                simpa using Nat.le_of_succ_le_succ hs
              rw [ht] at hlen
              simp at hlen
              omega
            rw [ht]
            exact hrest
          · exfalso
            change (if [] ++ List.takeWhile notRBrace t = []
                then scanPlaceholders rest none
                else ([] ++ List.takeWhile notRBrace t)
                  :: scanPlaceholders rest none) = [] at hscan
            rw [if_neg (by simpa using hmid)] at hscan
            cases hscan
      · have hstep : scanPlaceholders (c :: t) none
            = scanPlaceholders t none := by
          simp [scanPlaceholders, hc]
        rw [hstep] at hscan
        have htm : tame (c :: t) = tame t := by
          conv_lhs => rw [tame.eq_def]
          simp [hc]
        rw [htm]
        exact ih t (by simpa using Nat.le_of_succ_le_succ hs) hscan

theorem gapOK_cons_of_ne (c : Char) (l : Str) (hc : c ≠ '{') :
    gapOK (c :: l) = gapOK l := by
  conv_lhs => rw [gapOK.eq_def]
  simp [hc]

theorem tame_cons_of_ne (c : Char) (l : Str) (hc : c ≠ '{') :
    tame (c :: l) = tame l := by
  conv_lhs => rw [tame.eq_def]
  simp [hc]

/-- Synchronization of the scanner with the partition loop: when the scanner finds
`p` first, `{p}` occurs in `s`, the Python `partition` splits exactly at that
occurrence, the text before it satisfies the gap invariant, and the scanner output
on the remainder is the remaining placeholder list. -/
theorem scan_cons_sync :
    ∀ (n : Nat) (s : Str), s.length ≤ n →
    ∀ p ps, scanPlaceholders s none = p :: ps →
      p ≠ [] ∧ '}' ∉ p
      ∧ ∃ gap rest,
          s = gap ++ '{' :: (p ++ '}' :: rest)
          ∧ partitionAt ('{' :: (p ++ ['}'])) s = (gap, rest)
          ∧ gapOK gap = true
          ∧ scanPlaceholders rest none = ps := by
  intro n
  induction n with
  | zero =>
    intro s hs p ps hscan
    match s with
    | [] => cases hscan
    | c :: t => simp at hs
  | succ n ih =>
    intro s hs p ps hscan
    match s with
    | [] => cases hscan
    | c :: t =>
      by_cases hc : c = '{'
      · subst hc
        have hstep : scanPlaceholders ('{' :: t) none
            = scanPlaceholders t (some []) := by
          simp [scanPlaceholders]
        rw [hstep, scanPlaceholders_some_eq] at hscan
        cases hdw : t.dropWhile notRBrace with
        | nil =>
          rw [hdw] at hscan
          cases hscan
        | cons x rest0 =>
          rw [hdw] at hscan
          have hx : x = '}' := by
            have := dropWhile_head_false notRBrace t x rest0 hdw
            simpa [notRBrace] using this
          subst hx
          have ht : t = t.takeWhile notRBrace ++ '}' :: rest0 := by
            conv_lhs => rw [← List.takeWhile_append_dropWhile notRBrace t]
            rw [hdw]
          by_cases hmid : t.takeWhile notRBrace = []
          · have hscan2 : scanPlaceholders rest0 none = p :: ps := by
              simpa [hmid] using hscan
            have ht2 : t = '}' :: rest0 := by
              conv_lhs => rw [ht, hmid]
              rfl
            have hlen : rest0.length ≤ n := by
              have h1 : t.length ≤ n := by
                simpa using Nat.le_of_succ_le_succ hs
              rw [ht2] at h1
              simp at h1
              omega
            obtain ⟨hp, hnp, gap2, rest, hdec, hpart, hgap, hsc⟩ :=
              ih rest0 hlen p ps hscan2
            refine ⟨hp, hnp, '{' :: '}' :: gap2, rest, ?_, ?_, ?_, hsc⟩
            · rw [ht2, hdec]
              rfl
            · have hp1 : ∃ p1 p2, p = p1 :: p2 ∧ p1 ≠ '}' := by
                match p with
                | [] => exact absurd rfl hp
                | p1 :: p2 =>
                  exact ⟨p1, p2, rfl, fun he => hnp (he ▸ List.mem_cons_self _ _)⟩
              obtain ⟨p1, p2, hpe, hp1ne⟩ := hp1
              have hnopre1 : ('{' :: (p ++ ['}'])).isPrefixOf ('{' :: t) = false := by
                rw [ht2, hpe]
                simp [List.isPrefixOf]
                intro he
                exact absurd he hp1ne
              have hnopre2 : ('{' :: (p ++ ['}'])).isPrefixOf ('}' :: rest0) = false := by
                simp [List.isPrefixOf]
              rw [partitionAt, if_neg (by rw [hnopre1]; exact Bool.false_ne_true)]
              rw [ht2]
              show ('{' :: (partitionAt ('{' :: (p ++ ['}'])) ('}' :: rest0)).1,
                  (partitionAt ('{' :: (p ++ ['}'])) ('}' :: rest0)).2)
                = ('{' :: '}' :: gap2, rest)
              rw [partitionAt, if_neg (by rw [hnopre2]; exact Bool.false_ne_true)]
              show ('{' :: '}' :: (partitionAt ('{' :: (p ++ ['}'])) rest0).1,
                  (partitionAt ('{' :: (p ++ ['}'])) rest0).2)
                = ('{' :: '}' :: gap2, rest)
              rw [hpart]
            · show gapOK gap2 = true
              exact hgap
          · have hscan2 : ([] ++ t.takeWhile notRBrace) :: scanPlaceholders rest0 none
                = p :: ps := by
              have hne : ¬ ([] ++ t.takeWhile notRBrace = []) := by simpa using hmid
              change (if [] ++ List.takeWhile notRBrace t = []
                  then scanPlaceholders rest0 none
                  else ([] ++ List.takeWhile notRBrace t)
                    :: scanPlaceholders rest0 none) = p :: ps at hscan
              rwa [if_neg hne] at hscan
            have hpe : p = t.takeWhile notRBrace := by
              have := congrArg (fun l => List.head? l) hscan2
              simpa using this.symm
            have hps : scanPlaceholders rest0 none = ps := by
              have := congrArg (fun l => List.tail l) hscan2
              simpa using this
            have hnp : '}' ∉ p := by
              intro hmem
              rw [hpe] at hmem
              have := List.mem_takeWhile_imp hmem
              simp [notRBrace] at this
            refine ⟨by rw [hpe]; exact hmid, hnp, [], rest0, ?_, ?_, rfl, hps⟩
            · rw [← hpe] at ht
              rw [ht]
              rfl
            · have hseq : '{' :: t = ('{' :: (p ++ ['}'])) ++ rest0 := by
                rw [← hpe] at ht
                rw [ht]
                simp
              have hpre : ('{' :: (p ++ ['}'])).isPrefixOf ('{' :: t) = true := by
                rw [List.isPrefixOf_iff_prefix, hseq]
                exact List.prefix_append _ _
              rw [partitionAt, if_pos hpre, hseq, List.drop_left]
      · have hstep : scanPlaceholders (c :: t) none
            = scanPlaceholders t none := by
          simp [scanPlaceholders, hc]
        rw [hstep] at hscan
        obtain ⟨hp, hnp, gap, rest, hdec, hpart, hgap, hsc⟩ :=
          ih t (by simpa using Nat.le_of_succ_le_succ hs) p ps hscan
        refine ⟨hp, hnp, c :: gap, rest, ?_, ?_, ?_, hsc⟩
        · rw [List.cons_append, ← hdec]
        · have hnopre : ('{' :: (p ++ ['}'])).isPrefixOf (c :: t) = false := by
            simp [List.isPrefixOf]
            intro he
            exact absurd he.symm hc
          rw [partitionAt, if_neg (by rw [hnopre]; exact Bool.false_ne_true)]
          show (c :: (partitionAt ('{' :: (p ++ ['}'])) t).1,
              (partitionAt ('{' :: (p ++ ['}'])) t).2) = (c :: gap, rest)
          rw [hpart]
        · rw [gapOK_cons_of_ne c gap hc]
          exact hgap

theorem lookup_mem_of_eq_some {α β : Type} [BEq α] [LawfulBEq α]
    (l : List (α × β)) (k : α) (v : β) (h : l.lookup k = some v) : (k, v) ∈ l := by
  obtain ⟨l1, l2, he, -⟩ := List.lookup_eq_some_iff.mp h
  rw [he]
  exact List.mem_append_right l1 (List.mem_cons_self _ _)

theorem buildLoop_nil_eq (values : List (Str × Str)) (current : Str)
    (parts : List Str) :
    buildLoop values [] current parts
      = if current ≠ [] then parts ++ [current] else parts := rfl

theorem buildLoop_cons_some (values : List (Str × Str)) (ph : Str)
    (rest : List Str) (current : Str) (parts : List Str) (v : Str)
    (hl : values.lookup ph = some v) :
    buildLoop values (ph :: rest) current parts
      = buildLoop values rest (partitionAt ('{' :: (ph ++ ['}'])) current).2
          (parts ++ [(partitionAt ('{' :: (ph ++ ['}'])) current).1 ++ v]) := by
  simp only [buildLoop, hl]

theorem buildLoop_cons_none (values : List (Str × Str)) (ph : Str)
    (rest : List Str) (current : Str) (parts : List Str)
    (hl : values.lookup ph = none) :
    buildLoop values (ph :: rest) current parts
      = buildLoop values rest (partitionAt ('{' :: (ph ++ ['}'])) current).2 parts := by
  simp only [buildLoop, hl]

/-- The `parts` accumulator of the loop only ever grows at the right. -/
theorem buildLoop_parts_append (values : List (Str × Str)) :
    ∀ (phs : List Str) (current : Str) (parts : List Str),
      buildLoop values phs current parts
        = parts ++ buildLoop values phs current [] := by
  intro phs
  induction phs with
  | nil =>
    intro current parts
    rw [buildLoop_nil_eq, buildLoop_nil_eq]
    by_cases hc : current = []
    · simp [hc]
    · simp [hc]
  | cons ph rest ih =>
    intro current parts
    cases hl : values.lookup ph with
    | some v =>
      rw [buildLoop_cons_some values ph rest current parts v hl,
        buildLoop_cons_some values ph rest current [] v hl,
        ih _ (parts ++ _), ih _ ([] ++ _)]
      simp
    | none =>
      rw [buildLoop_cons_none values ph rest current parts hl,
        buildLoop_cons_none values ph rest current [] hl]
      exact ih _ parts

theorem tame_append_of_no_lbrace :
    ∀ (v b : Str), '{' ∉ v → tame b = true → tame (v ++ b) = true := by
  intro v
  induction v with
  | nil =>
    intro b _ hb
    simpa using hb
  | cons c v2 ih =>
    intro b hv hb
    have hc : c ≠ '{' := by
      intro he
      subst he
      exact hv (List.mem_cons_self _ _)
    rw [List.cons_append, tame_cons_of_ne c _ hc]
    exact ih b (fun hm => hv (List.mem_cons_of_mem _ hm)) hb

theorem tame_append_of_gapOK (b : Str) (hb : tame b = true) :
    ∀ (n : Nat) (gap : Str), gap.length ≤ n → gapOK gap = true
      → tame (gap ++ b) = true := by
  intro n
  induction n with
  | zero =>
    intro gap hlen hgap
    match gap with
    | [] => simpa using hb
    | c :: g => simp at hlen
  | succ n ih =>
    intro gap hlen hgap
    match gap with
    | [] => simpa using hb
    | c :: g =>
      by_cases hc : c = '{'
      · subst hc
        match g with
        | [] => exact absurd hgap (by decide)
        | d :: g2 =>
          have hd : d = '}' := by
            by_contra hd
            have hfalse : gapOK ('{' :: d :: g2) = false := by
              conv_lhs => rw [gapOK.eq_def]
              simp [hd]
            rw [hfalse] at hgap
            cases hgap
          subst hd
          have hgap2 : gapOK g2 = true := hgap
          have hlen2 : g2.length ≤ n := by
            simp at hlen
            omega
          have hrec := ih g2 hlen2 hgap2
          show tame ('{' :: '}' :: (g2 ++ b)) = true
          exact hrec
      · rw [List.cons_append, tame_cons_of_ne c _ hc]
        have hgap2 : gapOK g = true := by
          rw [← gapOK_cons_of_ne c g hc]
          exact hgap
        have hlen2 : g.length ≤ n := by
          simp at hlen
          omega
        exact ih g hlen2 hgap2

/-- After the loop, the concatenation of the produced parts is tame: gaps are
brace-balanced by the scanner sync, and substituted values are brace-free. -/
theorem tame_join_buildLoop (values : List (Str × Str))
    (hvals : ∀ kv ∈ values, '{' ∉ kv.2) :
    ∀ (n : Nat) (s : Str), s.length ≤ n →
      tame (buildLoop values (findPlaceholders s) s []).join = true := by
  intro n
  induction n with
  | zero =>
    intro s hs
    have hse : s = [] := List.length_eq_zero.mp (Nat.le_zero.mp hs)
    subst hse
    rw [show findPlaceholders ([] : Str) = [] from rfl, buildLoop_nil_eq,
      if_neg (by simp)]
    rfl
  | succ n ih =>
    intro s hs
    cases hscan : findPlaceholders s with
    | nil =>
      rw [buildLoop_nil_eq]
      by_cases hse : s = []
      · rw [if_neg (by simp [hse])]
        rfl
      · rw [if_pos hse]
        have : tame s = true := tame_of_scan_nil s.length s le_rfl hscan
        simpa using this
    | cons p ps =>
      obtain ⟨hp, hnp, gap, rest, hdec, hpart, hgap, hsc⟩ :=
        scan_cons_sync (n + 1) s hs p ps hscan
      have hrestlen : rest.length ≤ n := by
        have := congrArg List.length hdec
        simp at this
        omega
      have hrest := ih rest hrestlen
      rw [show findPlaceholders rest = ps from hsc] at hrest
      cases hl : values.lookup p with
      | some v =>
        rw [buildLoop_cons_some values p ps s [] v hl, hpart,
          buildLoop_parts_append values ps rest]
        have hv : '{' ∉ v := hvals (p, v) (lookup_mem_of_eq_some values p v hl)
        have hjoin :
            (([] ++ [gap ++ v]) ++ buildLoop values ps rest []).join
              = gap ++ (v ++ (buildLoop values ps rest []).join) := by
          simp
        rw [hjoin]
        exact tame_append_of_gapOK _ (tame_append_of_no_lbrace v _ hv hrest)
          gap.length gap le_rfl hgap
      | none =>
        rw [buildLoop_cons_none values p ps s [] hl, hpart]
        exact hrest

theorem tame_lbrace_false (d : Char) (r : Str) (hd : d ≠ '}')
    (hmem : '}' ∈ d :: r) : tame ('{' :: d :: r) = false := by
  conv_lhs => rw [tame.eq_def]
  simp [hd, hmem]

theorem tame_eq_false_of_placeholder_head (p b : Str) (hp : p ≠ [])
    (hnp : '}' ∉ p) : tame ('{' :: (p ++ '}' :: b)) = false := by
  match p with
  | [] => exact absurd rfl hp
  | p1 :: p2 =>
    have hp1 : p1 ≠ '}' := by
      intro he
      subst he
      exact hnp (List.mem_cons_self _ _)
    have hmem : '}' ∈ p1 :: (p2 ++ '}' :: b) := by
      apply List.mem_cons_of_mem
      exact List.mem_append_right _ (List.mem_cons_self _ _)
    rw [List.cons_append]
    exact tame_lbrace_false p1 (p2 ++ '}' :: b) hp1 hmem

/-- A tame string never contains an unresolved placeholder text. -/
theorem tame_eq_false_of_placeholder :
    ∀ (n : Nat) (a p b : Str), a.length ≤ n → p ≠ [] → '}' ∉ p →
      tame (a ++ '{' :: (p ++ '}' :: b)) = false := by
  intro n
  induction n with
  | zero =>
    intro a p b ha hp hnp
    have hae : a = [] := List.length_eq_zero.mp (Nat.le_zero.mp ha)
    subst hae
    rw [List.nil_append]
    exact tame_eq_false_of_placeholder_head p b hp hnp
  | succ n ih =>
    intro a p b ha hp hnp
    match a with
    | [] =>
      rw [List.nil_append]
      exact tame_eq_false_of_placeholder_head p b hp hnp
    | c :: a2 =>
      have ha2 : a2.length ≤ n := by
        simp at ha
        omega
      by_cases hc : c = '{'
      · subst hc
        match a2 with
        | [] =>
          have hmem : '}' ∈ '{' :: (p ++ '}' :: b) := by
            apply List.mem_cons_of_mem
            exact List.mem_append_right _ (List.mem_cons_self _ _)
          show tame ('{' :: '{' :: (p ++ '}' :: b)) = false
          exact tame_lbrace_false '{' (p ++ '}' :: b) (by decide) hmem
        | d :: a3 =>
          by_cases hd : d = '}'
          · subst hd
            show tame ('{' :: '}' :: (a3 ++ '{' :: (p ++ '}' :: b))) = false
            have heq : tame ('{' :: '}' :: (a3 ++ '{' :: (p ++ '}' :: b)))
                = tame (a3 ++ '{' :: (p ++ '}' :: b)) := rfl
            rw [heq]
            exact ih a3 p b (by simp at ha2; omega) hp hnp
          · have hmem : '}' ∈ d :: (a3 ++ '{' :: (p ++ '}' :: b)) := by
              apply List.mem_cons_of_mem
              apply List.mem_append_right
              apply List.mem_cons_of_mem
              exact List.mem_append_right _ (List.mem_cons_self _ _)
            show tame ('{' :: d :: (a3 ++ '{' :: (p ++ '}' :: b))) = false
            exact tame_lbrace_false d _ hd hmem
      · rw [List.cons_append, tame_cons_of_ne c _ hc]
        exact ih a2 p b ha2 hp hnp

/-- Python `strip` removes characters only at the two ends: the stripped string
sits between a separator-only prefix and a separator-only suffix of the input. -/
theorem stripDashUnderscore_decomp (s : Str) :
    s = s.takeWhile isSepChar
        ++ (stripDashUnderscore s
            ++ ((s.dropWhile isSepChar).reverse.takeWhile isSepChar).reverse) := by
  conv_lhs => rw [← List.takeWhile_append_dropWhile isSepChar s]
  congr 1
  conv_lhs => rw [← List.reverse_reverse (s.dropWhile isSepChar),
    ← List.takeWhile_append_dropWhile isSepChar (s.dropWhile isSepChar).reverse,
    List.reverse_append]
  rfl

theorem stripDashUnderscore_head (s : Str) (ch : Char)
    (h : (stripDashUnderscore s).head? = some ch) : isSepChar ch = false := by
  have hpre : stripDashUnderscore s <+: s.dropWhile isSepChar := by
    have hsuf : (s.dropWhile isSepChar).reverse.dropWhile isSepChar
        <:+ (s.dropWhile isSepChar).reverse := List.dropWhile_suffix _
    have hpre2 := List.reverse_prefix.mpr hsuf
    rw [List.reverse_reverse] at hpre2
    exact hpre2
  obtain ⟨r, hr⟩ := hpre
  match hst : stripDashUnderscore s with
  | [] =>
    rw [hst] at h
    cases h
  | c :: rest =>
    rw [hst] at h
    have hc : c = ch := by simpa using h
    subst hc
    rw [hst] at hr
    have hu : s.dropWhile isSepChar = c :: (rest ++ r) := by
      rw [← hr]
      rfl
    exact dropWhile_head_false isSepChar s c _ hu

theorem stripDashUnderscore_last (s : Str) (ch : Char)
    (h : (stripDashUnderscore s).getLast? = some ch) : isSepChar ch = false := by
  have h2 : (stripDashUnderscore s).reverse.head? = some ch := by
    rw [List.head?_reverse]
    exact h
  have he : (stripDashUnderscore s).reverse
      = (s.dropWhile isSepChar).reverse.dropWhile isSepChar :=
    List.reverse_reverse _
  rw [he] at h2
  match hdw : (s.dropWhile isSepChar).reverse.dropWhile isSepChar with
  | [] =>
    rw [hdw] at h2
    cases h2
  | c :: rest =>
    rw [hdw] at h2
    have hc : c = ch := by simpa using h2
    subst hc
    exact dropWhile_head_false isSepChar _ c rest hdw

theorem renderSpec_scan_nil (values : List (Str × Str)) (s : Str)
    (h : findPlaceholders s = []) : renderSpec values s = s := by
  rw [renderSpec.eq_def]
  split
  · rfl
  · rename_i ph tail heq
    rw [h] at heq
    cases heq

theorem renderSpec_scan_cons_some (values : List (Str × Str)) (s : Str)
    (ph : Str) (phs : List Str) (v : Str) (h : findPlaceholders s = ph :: phs)
    (hl : values.lookup ph = some v) :
    renderSpec values s
      = ((partitionAt ('{' :: (ph ++ ['}'])) s).1 ++ v)
        ++ renderSpec values (partitionAt ('{' :: (ph ++ ['}'])) s).2 := by
  rw [renderSpec.eq_def]
  split
  · rename_i heq
    rw [h] at heq
    cases heq
  · rename_i ph2 tail heq
    rw [h] at heq
    cases heq
    simp only [hl]

theorem renderSpec_scan_cons_none (values : List (Str × Str)) (s : Str)
    (ph : Str) (phs : List Str) (h : findPlaceholders s = ph :: phs)
    (hl : values.lookup ph = none) :
    renderSpec values s
      = renderSpec values (partitionAt ('{' :: (ph ++ ['}'])) s).2 := by
  rw [renderSpec.eq_def]
  split
  · rename_i heq
    rw [h] at heq
    cases heq
  · rename_i ph2 tail heq
    rw [h] at heq
    cases heq
    simp only [hl, List.nil_append]

/-- The Python loop (segments accumulated then joined) computes exactly the
segment-by-segment rendering described by the claim. -/
theorem join_buildLoop_eq_renderSpec (values : List (Str × Str)) :
    ∀ (n : Nat) (s : Str), s.length ≤ n →
      (buildLoop values (findPlaceholders s) s []).join = renderSpec values s := by
  intro n
  induction n with
  | zero =>
    intro s hs
    have hse := List.length_eq_zero.mp (Nat.le_zero.mp hs)
    subst hse
    rw [renderSpec_scan_nil values [] rfl,
      show findPlaceholders ([] : Str) = [] from rfl, buildLoop_nil_eq,
      if_neg (by simp)]
    rfl
  | succ n ih =>
    intro s hs
    cases hscan : findPlaceholders s with
    | nil =>
      rw [renderSpec_scan_nil values s hscan, buildLoop_nil_eq]
      by_cases hse : s = []
      · rw [if_neg (by simp [hse]), hse]
        rfl
      · rw [if_pos hse]
        simp
    | cons p ps =>
      obtain ⟨hp, hnp, gap, rest, hdec, hpart, hgap, hsc⟩ :=
        scan_cons_sync (n + 1) s hs p ps hscan
      have hrestlen : rest.length ≤ n := by
        have := congrArg List.length hdec
        simp at this
        omega
      have hrest := ih rest hrestlen
      rw [show findPlaceholders rest = ps from hsc] at hrest
      cases hl : values.lookup p with
      | some v =>
        rw [renderSpec_scan_cons_some values s p ps v hscan hl, hpart,
          buildLoop_cons_some values p ps s [] v hl, hpart,
          buildLoop_parts_append values ps rest, ← hrest]
        simp
      | none =>
        rw [renderSpec_scan_cons_none values s p ps hscan hl, hpart,
          buildLoop_cons_none values p ps s [] hl, hpart, ← hrest]

theorem not_hasPlaceholder_strip_of_tame (s : Str) (hs : tame s = true) :
    ¬ hasPlaceholder (stripDashUnderscore s) := by
  intro hph2
  obtain ⟨a, p, b, hp, hnp, heq⟩ := hph2
  have hdecomp := stripDashUnderscore_decomp s
  rw [heq] at hdecomp
  have hj2 : s = (s.takeWhile isSepChar ++ a)
      ++ '{' :: (p ++ '}' :: (b
        ++ ((s.dropWhile isSepChar).reverse.takeWhile isSepChar).reverse)) := by
    conv_lhs => rw [hdecomp]
    simp [List.append_assoc]
  have hfalse := tame_eq_false_of_placeholder
    (s.takeWhile isSepChar ++ a).length (s.takeWhile isSepChar ++ a) p
    (b ++ ((s.dropWhile isSepChar).reverse.takeWhile isSepChar).reverse)
    le_rfl hp hnp
  rw [← hj2, hs] at hfalse
  cases hfalse

/-- C7 counterexample: the original claim quantifies over every value assignment,
but the substituted values are spliced into the output verbatim, so brace
characters inside them can assemble a fresh placeholder text. With a city of
`a\x7bb` and a postal code of `c\x7dd` (both flow verbatim from the
client-supplied location headers into `Location.to_template_values`; lowercasing
leaves them unchanged) and the ordinary template `\x7bcity\x7d-\x7bpostal_code\x7d`,
`_build_params` renders `a\x7bb-c\x7dd`, which contains the unresolved placeholder
text `\x7bb-c\x7d` — refuting "the rendered output never contains an unresolved
placeholder text". -/
theorem c7_template_placeholder_counterexample :
    buildParams "{city}-{postal_code}".toList
        (buildParamsValues ['p']
          (some ⟨none, none, some ['a', '{', 'b'], none, some ['c', '}', 'd']⟩))
      = ['a', '{', 'b', '-', 'c', '}', 'd']
    ∧ hasPlaceholder
        (buildParams "{city}-{postal_code}".toList
          (buildParamsValues ['p']
            (some ⟨none, none, some ['a', '{', 'b'], none, some ['c', '}', 'd']⟩))) :=
  ⟨by decide, ⟨['a'], ['b', '-', 'c'], ['d'], by decide, by decide, by decide⟩⟩

/-- C7 amended: for every template string and every value assignment the code
builds (`session_id` from the profile id, plus the location's country / state /
city / city_compacted / postal_code template values, each possibly absent) in
which no value contains a `\x7b` character: the rendered output of
`_build_params` never contains an unresolved placeholder text; it equals the
claim-side segment renderer (each segment whose placeholder resolves is kept with
the value substituted, each segment whose placeholder has no value is dropped)
followed by the strip of leading/trailing separators; and no leading or trailing
separator character (`-` or `_`) remains. -/
theorem c7_template_placeholder_rendering (template profileId : Str)
    (loc : Option LocationM)
    (hvals : ∀ kv ∈ buildParamsValues profileId loc, '{' ∉ kv.2) :
    ¬ hasPlaceholder (buildParams template (buildParamsValues profileId loc))
    ∧ buildParams template (buildParamsValues profileId loc)
        = stripDashUnderscore
            (renderSpec (buildParamsValues profileId loc) template)
    ∧ (∀ ch,
        (buildParams template (buildParamsValues profileId loc)).head? = some ch
        → isSepChar ch = false)
    ∧ (∀ ch,
        (buildParams template (buildParamsValues profileId loc)).getLast? = some ch
        → isSepChar ch = false) := by
  refine ⟨?_, ?_, ?_, ?_⟩
  · exact not_hasPlaceholder_strip_of_tame _
      (tame_join_buildLoop _ hvals template.length template le_rfl)
  · exact congrArg stripDashUnderscore
      (join_buildLoop_eq_renderSpec _ template.length template le_rfl)
  · intro ch h
    exact stripDashUnderscore_head _ ch h
  · intro ch h
    exact stripDashUnderscore_last _ ch h

theorem c7_template_placeholder_rendering_witness :
    (∀ kv ∈ buildParamsValues "p1".toList none, '{' ∉ kv.2)
    ∧ (¬ hasPlaceholder
          (buildParams "{session_id}-{country}".toList (buildParamsValues "p1".toList none))
      ∧ buildParams "{session_id}-{country}".toList (buildParamsValues "p1".toList none)
          = stripDashUnderscore
              (renderSpec (buildParamsValues "p1".toList none) "{session_id}-{country}".toList)
      ∧ (∀ ch,
          (buildParams "{session_id}-{country}".toList
            (buildParamsValues "p1".toList none)).head? = some ch
          → isSepChar ch = false)
      ∧ (∀ ch,
          (buildParams "{session_id}-{country}".toList
            (buildParamsValues "p1".toList none)).getLast? = some ch
          → isSepChar ch = false)) :=
  ⟨by decide,
    c7_template_placeholder_rendering "{session_id}-{country}".toList "p1".toList none
      (by decide)⟩

end Gateway
